import Mathlib

/-!
Shallow embedding of the PyHanoi search engine
(`pyhanoi/libhanoi.py` and `pyhanoi/libcommon.py`).

Mutable Python objects are modelled by an arena: every `Node` object is an
index into `GraphState.nodes`, and each method becomes a pure state
transformer.  Python lists are Lean lists, Python `int` ring sizes are `Nat`.
The `while` loop of `Graph.process` is modelled by a fuel-indexed iterator
`run_steps`; a run is finished once the loop guard is false.
-/

abbrev TowerSet := List (List Nat)

abbrev Delta := Nat × Nat

/-- `libcommon.pop_list`: sort the index list ascending, reverse it so it is
descending, then pop each index in turn from the item list. -/
def pop_list (index_list : List Nat) (item_list : List α) : List α :=
  ((List.insertionSort (· ≤ ·) index_list).reverse).foldl
    (fun acc i => acc.eraseIdx i) item_list

/-- `libcommon.get_matching_index`: all pairs `(i, j)` with
`list1[i] == list2[j]`, enumerated with `i` outer and `j` inner. -/
def get_matching_index (list1 list2 : List TowerSet) : List (Nat × Nat) :=
  (list1.enum).flatMap fun p =>
    (list2.enum).filterMap fun q => if p.2 == q.2 then some (p.1, q.1) else none

/-- One iteration body of `NodePrototype.check_validity`: Python sorts a copy
of the tower ascending, reverses it, and compares with the tower. -/
def towerSorted (tower : List Nat) : Bool :=
  (List.insertionSort (· ≤ ·) tower).reverse == tower

/-- `NodePrototype.check_validity`: every tower equals its own
descending-sorted copy. -/
def check_validity (data : TowerSet) : Bool :=
  data.all towerSorted

/-- `NodePrototype.__init__`: the stored (deep-copied) tower set, or `none`
when `check_validity` fails and `InvalidRingOrderError` is raised. -/
def NodePrototype_new (data : TowerSet) : Option TowerSet :=
  if check_validity data then some data else none

/-- `NodePrototype._is_patch_valid`: source tower non-empty, and destination
empty or destination top ring larger than source top ring. -/
def is_patch_valid (data : TowerSet) (delta : Delta) : Bool :=
  let init := delta.1
  let fin := delta.2
  if (data.getD init []).length > 0 then
    if (data.getD fin []).length == 0 then
      true
    else if (data.getD fin []).getLastD 0 > (data.getD init []).getLastD 0 then
      true
    else
      false
  else
    false

/-- The mutation performed by `NodePrototype.patch` in its success branch:
`self.data[final].append(self.data[init].pop())`. -/
def applyPatch (data : TowerSet) (delta : Delta) : TowerSet :=
  let init := delta.1
  let fin := delta.2
  let ring := (data.getD init []).getLastD 0
  let d1 := data.set init (data.getD init []).dropLast
  d1.set fin ((d1.getD fin []) ++ [ring])

/-- `NodePrototype.patch`: check legality first, then move the ring;
`none` models the raised `InvalidRingOrderError`. -/
def patch (data : TowerSet) (delta : Delta) : Option TowerSet :=
  if is_patch_valid data delta then some (applyPatch data delta) else none

/-- `NodePrototype.patch` viewed as a method on the object state: the
resulting `self.data` together with `true` on success / `false` when the
error is raised (in which case the data is left untouched). -/
def patch_run (data : TowerSet) (delta : Delta) : TowerSet × Bool :=
  if is_patch_valid data delta then (applyPatch data delta, true) else (data, false)

/-- `itertools.permutations(range(t), 2)`: ordered pairs of distinct indices
in lexicographic order. -/
def perms2 (t : Nat) : List Delta :=
  (List.range t).flatMap fun i =>
    ((List.range t).filter (fun j => j ≠ i)).map (fun j => (i, j))

/-- `ModList.generate`: for each ordered pair, build `NodePrototype(data)`
(whose constructor re-validates and may raise, caught by the `except`) and
`patch` it; keep `(mod.data, delta)` for the successful attempts. -/
def genMods (data : TowerSet) : List (TowerSet × Delta) :=
  (perms2 data.length).filterMap fun d =>
    if check_validity data && is_patch_valid data d then
      some (applyPatch data d, d)
    else
      none

/-- `ModList.filter_out`: drop the mods whose tower set matches one of the
given tower sets, via `get_matching_index` and `pop_list`. -/
def filter_out (mods : List (TowerSet × Delta)) (tower_sets : List TowerSet) :
    List (TowerSet × Delta) :=
  pop_list
    ((get_matching_index (mods.map Prod.fst) tower_sets).map Prod.fst)
    mods

/-- The mutable per-`Node` state: its configuration, adjacency list and
history (origins are arena indices). -/
structure NodeData where
  data : TowerSet
  connections : List Nat
  history : List (Nat × List Delta)
deriving Repr, DecidableEq

/-- The mutable `Graph` state; `nodes` is the arena of every `Node` object
ever constructed, identified by its index. -/
structure GraphState where
  pinned : List TowerSet
  found_nodes : List Nat
  rings : Nat
  current_nodes : List Nat
  next_nodes : List Nat
  nodes : List NodeData
deriving Repr, DecidableEq

def getNode (st : GraphState) (i : Nat) : NodeData :=
  st.nodes.getD i ⟨[], [], []⟩

def setNode (st : GraphState) (i : Nat) (nd : NodeData) : GraphState :=
  { st with nodes := st.nodes.set i nd }

/-- The three `NodeStage` enum members. -/
inductive NodeStage where
  | CURRENT
  | NEXT
  | PROTOTYPE
deriving Repr, DecidableEq

/-- `Node.add_history(self, (node, delta))`.  The Python loop rebinds the
variable `node` to each history entry's origin, so the trailing
`self.history.append((node, [delta]))` uses the origin of the *last* entry
of the connecting node's history when that history is non-empty, and the
connecting node itself only when it is empty. -/
def add_history (st : GraphState) (selfId connId : Nat) (delta : Delta) :
    GraphState :=
  let connHist := (getNode st connId).history
  let newEntries := connHist.map (fun h => (h.1, h.2 ++ [delta]))
  let finalOrigin := (connHist.map Prod.fst).getLastD connId
  let nd := getNode st selfId
  setNode st selfId
    { nd with history := nd.history ++ newEntries ++ [(finalOrigin, [delta])] }

/-- `Node.connect(self, (node, delta), stage)`: record the undirected edge on
both endpoints; add history unless the stage is `CURRENT`; append `self` to
the graph's next frontier when the stage is `PROTOTYPE`. -/
def connect (st : GraphState) (selfId connId : Nat) (delta : Delta)
    (stage : NodeStage) : GraphState :=
  let nd1 := getNode st selfId
  let st1 := setNode st selfId { nd1 with connections := nd1.connections ++ [connId] }
  let nd2 := getNode st1 connId
  let st2 := setNode st1 connId { nd2 with connections := nd2.connections ++ [selfId] }
  let st3 := if stage ≠ NodeStage.CURRENT then add_history st2 selfId connId delta else st2
  if stage = NodeStage.PROTOTYPE then
    { st3 with next_nodes := st3.next_nodes ++ [selfId] }
  else
    st3

/-- The inner `connect_list` of `Node.propagate`.  The guard
`if NodeStage == NodeStage.PROTOTYPE` in the source compares the enum class
itself with a member and is always false, so the general branch runs for all
three stages: match the pending mods against the given nodes' tower sets,
call `connect` on each match, and pop the matched mods. -/
def connect_list (st : GraphState) (selfId : Nat) (nodeIds : List Nat)
    (stage : NodeStage) (mods : List (TowerSet × Delta)) :
    GraphState × List (TowerSet × Delta) :=
  let tsl := nodeIds.map (fun idx => (getNode st idx).data)
  let mts := get_matching_index (mods.map Prod.fst) tsl
  let st' := mts.foldl
    (fun acc m =>
      connect acc (nodeIds.getD m.2 0) selfId ((mods.getD m.1 ([], (0, 0))).2) stage)
    st
  (st', pop_list (mts.map Prod.fst) mods)

/-- `Node.propagate`: generate mods, filter out already-connected
configurations, reconcile against the current frontier, then the next
frontier, then create a fresh `Node` for every remaining mod and connect it
(which also appends it to the next frontier). -/
def propagate (st : GraphState) (selfId : Nat) : GraphState :=
  let data := (getNode st selfId).data
  let mods0 := genMods data
  let mods1 := filter_out mods0
    (((getNode st selfId).connections).map (fun i => (getNode st i).data))
  let r1 := connect_list st selfId st.current_nodes NodeStage.CURRENT mods1
  let r2 := connect_list r1.1 selfId r1.1.next_nodes NodeStage.NEXT r1.2
  let base := r2.1.nodes.length
  let freshIds := (List.range r2.2.length).map (fun k => base + k)
  let st3 : GraphState :=
    { r2.1 with nodes := r2.1.nodes ++ r2.2.map (fun m => ⟨m.1, [], []⟩) }
  (connect_list st3 selfId freshIds NodeStage.PROTOTYPE r2.2).1

/-- The body of `Graph._check_pinned`: Python pops matching entries while
iterating with `enumerate`, so after a pop the element that slides into the
popped slot is skipped. -/
def cpAux (pinned : List TowerSet) (d : TowerSet) : List TowerSet :=
  match pinned with
  | [] => []
  | [x] => if x == d then [] else [x]
  | x :: y :: rest =>
    if x == d then y :: cpAux rest d else x :: cpAux (y :: rest) d

/-- `Graph._check_pinned`: remove the pinned targets matching the node's
configuration; nothing is ever appended to `found_nodes`. -/
def check_pinned (st : GraphState) (nodeId : Nat) : GraphState :=
  { st with pinned := cpAux st.pinned (getNode st nodeId).data }

/-- `Graph._process_current`: propagate every node of the current frontier,
check it against the pinned targets, then promote the next frontier. -/
def process_current (st : GraphState) : GraphState :=
  let st1 := st.current_nodes.foldl
    (fun acc nid => check_pinned (propagate acc nid) nid) st
  { st1 with current_nodes := st1.next_nodes, next_nodes := [] }

/-- The frontier fold inside `Graph._process_current`: propagate and
pinned-check each listed node in order. -/
def roundFold (C : List Nat) (st : GraphState) : GraphState :=
  C.foldl (fun acc nid => check_pinned (propagate acc nid) nid) st

/-- The guard of the `while` loop in `Graph.process`:
`while self.current_nodes and self.pinned`. -/
def loopGuard (st : GraphState) : Bool :=
  !st.current_nodes.isEmpty && !st.pinned.isEmpty

/-- `Graph.process`, unrolled with fuel: run rounds while the guard holds. -/
def run_steps : Nat → GraphState → GraphState
  | 0, st => st
  | n + 1, st => if loopGuard st then run_steps n (process_current st) else st

/-- The state built by `Graph.__init__` for an accepted start configuration:
empty pinned list, empty found list, the seed node alone in the current
frontier. -/
def mkGraph (start : TowerSet) (rings : Nat) : GraphState :=
  { pinned := []
    found_nodes := []
    rings := rings
    current_nodes := [0]
    next_nodes := []
    nodes := [⟨start, [], []⟩] }

/-- `Graph.__init__`: the seed node's constructor validates the start
configuration and raises (modelled by `none`) when it is invalid. -/
def Graph_init (start : TowerSet) (rings : Nat) : Option GraphState :=
  if check_validity start then some (mkGraph start rings) else none

/-- `graph.pinned.append(target)` for each registered target, as done by the
caller before `process()`. -/
def withPinned (st : GraphState) (targets : List TowerSet) : GraphState :=
  { st with pinned := st.pinned ++ targets }

/-- Replaying a recorded move sequence with `patch`, failing as soon as one
move is illegal. -/
def apply_log : TowerSet → List Delta → Option TowerSet
  | data, [] => some data
  | data, d :: rest =>
    match patch data d with
    | none => none
    | some data' => apply_log data' rest

/-- The specification's invariant I1 (§3): every tower is strictly
descending from bottom to top. -/
def strictTowers (data : TowerSet) : Prop :=
  ∀ t ∈ data, List.Chain' (· > ·) t

/-! ### Basic lemmas about the list primitives -/

theorem getD_set_ne (l : List α) {i j : Nat} (a : α) (d : α) (h : i ≠ j) :
    (l.set i a).getD j d = l.getD j d := by
  simp [List.getD_eq_getElem?_getD, List.getElem?_set_ne h]

theorem getD_set_self (l : List α) {i : Nat} (a : α) (d : α) (h : i < l.length) :
    (l.set i a).getD i d = a := by
  simp [List.getD_eq_getElem?_getD, List.getElem?_set_self h]

theorem set_getD_self (l : List α) {i : Nat} (d : α) (h : i < l.length) :
    l.set i (l.getD i d) = l := by
  apply List.ext_getElem?
  intro n
  by_cases hn : i = n
  · subst hn
    simp [List.getElem?_set_self h, List.getD_eq_getElem?_getD, List.getElem?_eq_getElem h]
  · simp [List.getElem?_set_ne hn]

theorem getNode_setNode_self {st : GraphState} {i : Nat} (nd : NodeData)
    (h : i < st.nodes.length) : getNode (setNode st i nd) i = nd := by
  simp [getNode, setNode, List.getElem?_set_self h]

theorem getNode_setNode_ne {st : GraphState} {i k : Nat} (nd : NodeData)
    (h : i ≠ k) : getNode (setNode st i nd) k = getNode st k := by
  simp [getNode, setNode, List.getElem?_set_ne h]

/-! ### The validity check characterized -/

theorem towerSorted_iff (t : List Nat) :
    towerSorted t = true ↔ List.Chain' (· ≥ ·) t := by
  haveI : IsTrans Nat (· ≥ ·) := ⟨fun _ _ _ h1 h2 => le_trans h2 h1⟩
  unfold towerSorted
  rw [beq_iff_eq]
  constructor
  · intro h
    have hs : List.Sorted (· ≤ ·) (List.insertionSort (· ≤ ·) t) :=
      List.sorted_insertionSort _ t
    have hrev : List.Pairwise (· ≥ ·) ((List.insertionSort (· ≤ ·) t).reverse) :=
      List.pairwise_reverse.2 hs
    rw [h] at hrev
    exact hrev.chain'
  · intro hc
    have hp : List.Pairwise (· ≥ ·) t := (List.chain'_iff_pairwise).1 hc
    have h1 : List.Sorted (· ≤ ·) t.reverse := List.pairwise_reverse.2 hp
    have h2 : List.Sorted (· ≤ ·) (List.insertionSort (· ≤ ·) t) :=
      List.sorted_insertionSort _ t
    have hperm : List.Perm (List.insertionSort (· ≤ ·) t) t.reverse :=
      (List.perm_insertionSort _ t).trans (List.reverse_perm t).symm
    have heq := List.eq_of_perm_of_sorted hperm h2 h1
    rw [heq, List.reverse_reverse]

theorem check_validity_iff (data : TowerSet) :
    check_validity data = true ↔ ∀ t ∈ data, List.Chain' (· ≥ ·) t := by
  unfold check_validity
  rw [List.all_eq_true]
  constructor
  · intro h t ht
    exact (towerSorted_iff t).1 (h t ht)
  · intro h t ht
    exact (towerSorted_iff t).2 (h t ht)

/-! ### found_nodes is never written (claim C1) -/

theorem found_setNode (st : GraphState) (i : Nat) (nd : NodeData) :
    (setNode st i nd).found_nodes = st.found_nodes := rfl

theorem found_add_history (st : GraphState) (a b : Nat) (d : Delta) :
    (add_history st a b d).found_nodes = st.found_nodes := rfl

theorem found_connect (st : GraphState) (a b : Nat) (d : Delta) (s : NodeStage) :
    (connect st a b d s).found_nodes = st.found_nodes := by
  cases s <;> rfl

theorem found_foldl {β : Type} (f : GraphState → β → GraphState)
    (hf : ∀ (st : GraphState) (x : β), (f st x).found_nodes = st.found_nodes) :
    ∀ (l : List β) (st : GraphState), (l.foldl f st).found_nodes = st.found_nodes := by
  intro l
  induction l with
  | nil => intro st; rfl
  | cons x xs ih =>
    intro st
    rw [List.foldl_cons, ih, hf]

theorem found_connect_list (st : GraphState) (a : Nat) (ids : List Nat)
    (s : NodeStage) (mods : List (TowerSet × Delta)) :
    (connect_list st a ids s mods).1.found_nodes = st.found_nodes := by
  unfold connect_list
  exact found_foldl _ (fun st' m => found_connect st' _ _ _ s) _ st

theorem found_propagate (st : GraphState) (i : Nat) :
    (propagate st i).found_nodes = st.found_nodes := by
  simp only [propagate, found_connect_list]

theorem found_check_pinned (st : GraphState) (i : Nat) :
    (check_pinned st i).found_nodes = st.found_nodes := rfl

theorem found_round_step (st : GraphState) (nid : Nat) :
    (check_pinned (propagate st nid) nid).found_nodes = st.found_nodes := by
  rw [found_check_pinned, found_propagate]

theorem found_process_current (st : GraphState) :
    (process_current st).found_nodes = st.found_nodes := by
  have h := found_foldl _ found_round_step st.current_nodes st
  simpa [process_current] using h

/-- Claim C1: the claim says a processed node whose configuration matches a
pinned target is appended to `found_nodes` and that the results are exactly
the matched nodes.  In the code `Graph._check_pinned` only pops the matched
target from `pinned` and nothing in the whole search ever writes
`found_nodes`: after any number of rounds of `Graph.process`, from any state
whatsoever, `found_nodes` is exactly what it was at the start (the empty
list for a freshly constructed `Graph`), even when target configurations
were matched. -/
theorem found_nodes_never_populated :
    ∀ (n : Nat) (st : GraphState), (run_steps n st).found_nodes = st.found_nodes := by
  intro n
  induction n with
  | zero => intro st; rfl
  | succ n ih =>
    intro st
    rw [run_steps]
    split
    · rw [ih, found_process_current]
    · rfl

/-! ### The loop guard stops on an empty pinned list (claim C2) -/

/-- Start configuration `[[2,1],[],[]]` with the start itself pinned: the
seed round matches and pops the only pinned target, after which the loop
guard fails although the frontier is non-empty. -/
def cexGraphA : GraphState := withPinned (mkGraph [[2, 1], [], []] 2) [[[2, 1], [], []]]

/-- Claim C2 counterexample: `Graph.process` stops as soon as `pinned` is
emptied, not when the frontier empties.  With two rings on three towers and
the start configuration pinned, the run reaches a fixpoint after a single
round: the guard is false, yet the current frontier still holds two nodes
and only 3 of the 9 reachable configurations were ever materialized. -/
theorem run_stops_early_with_nonempty_frontier :
    loopGuard (run_steps 9 cexGraphA) = false ∧
    (run_steps 9 cexGraphA).current_nodes = [1, 2] ∧
    (run_steps 9 cexGraphA).pinned = [] ∧
    (run_steps 9 cexGraphA).nodes.length = 3 ∧
    run_steps 9 cexGraphA = run_steps 1 cexGraphA :=
  ⟨rfl, rfl, rfl, rfl, rfl⟩

/-- Claim C2 (amended): the loop of `Graph.process` repeats while the
current frontier AND the pinned list are both non-empty; once every pinned
target has been matched and popped — or when no target was ever pinned —
the run stops regardless of how much of the reachable graph is left.  In
particular a state with an empty pinned list (or empty frontier) is a
fixpoint of the whole loop. -/
theorem run_steps_noop_of_halted :
    ∀ (n : Nat) (st : GraphState),
      st.pinned = [] ∨ st.current_nodes = [] → run_steps n st = st := by
  intro n st h
  cases n with
  | zero => rfl
  | succ n =>
    have hg : loopGuard st = false := by
      rcases h with h | h <;> simp [loopGuard, h]
    simp [run_steps, hg]

/-- Witness for `run_steps_noop_of_halted` at a concrete state: a fresh
graph for one ring on two towers with nothing pinned is left untouched by
three rounds of processing. -/
theorem run_steps_noop_of_halted_witness :
    run_steps 3 (mkGraph [[1], []] 1) = mkGraph [[1], []] 1 :=
  run_steps_noop_of_halted 3 (mkGraph [[1], []] 1) (Or.inl rfl)

/-! ### The shadowed history origin (claim C3) -/

/-- Two rings on three towers with the classic far-tower target pinned, so
the search keeps running past the second round. -/
def cexGraphB : GraphState := withPinned (mkGraph [[2, 1], [], []] 2) [[[], [], [2, 1]]]

/-- Claim C3: because `Node.add_history` rebinds the loop variable `node`,
the single-hop entry it appends carries the origin of the connecting node's
*last* history entry instead of the connecting node itself.  Concretely,
after two rounds from `[[2,1],[],[]]`, node 3 (configuration `[[],[1],[2]]`,
created from node 1 by move `(0,2)`) records the history entry
`(0, [(0,2)])`: its origin is node 0 — not node 1 — and replaying `[(0,2)]`
from node 0's configuration `[[2,1],[],[]]` legally yields `[[2],[],[1]]`,
which is not node 3's configuration.  The history-correctness property of
the claim is violated by the code. -/
theorem history_entry_wrong_origin :
    (getNode (run_steps 2 cexGraphB) 3).history
        = [(0, [(0, 1), (0, 2)]), (0, [(0, 2)])] ∧
    (getNode (run_steps 2 cexGraphB) 3).data = [[], [1], [2]] ∧
    (getNode (run_steps 2 cexGraphB) 0).data = [[2, 1], [], []] ∧
    (getNode (run_steps 2 cexGraphB) 1).data = [[2], [1], []] ∧
    apply_log [[2, 1], [], []] [(0, 2)] = some [[2], [], [1]] :=
  ⟨rfl, rfl, rfl, rfl, rfl⟩

/-! ### Construction-time validation (claim C9) -/

/-- Claim C9 counterexample: `check_validity` sorts each tower and compares,
which accepts towers that are merely non-increasing.  The tower `[2,2]` is
not strictly descending, yet `NodePrototype.__init__` accepts it and stores
it unchanged instead of raising `InvalidRingOrderError`. -/
theorem validity_accepts_equal_rings :
    NodePrototype_new [[2, 2]] = some [[2, 2]] ∧
    ¬ List.Chain' (· > ·) ([2, 2] : List Nat) :=
  ⟨rfl, by simp [List.chain'_cons]⟩

/-- Claim C9 (amended): constructing a `NodePrototype` raises the
invalid-configuration error iff some tower is not descending from bottom to
top in the non-strict sense (equal adjacent ring sizes are accepted); a
tower set that passes the check is stored unchanged. -/
theorem prototype_validation_characterization :
    ∀ (data : TowerSet),
      (NodePrototype_new data = none ↔ ¬ (∀ t ∈ data, List.Chain' (· ≥ ·) t)) ∧
      (∀ d' : TowerSet, NodePrototype_new data = some d' → d' = data) := by
  intro data
  constructor
  · rw [← check_validity_iff]
    unfold NodePrototype_new
    by_cases h : check_validity data <;> simp [h]
  · intro d' h
    unfold NodePrototype_new at h
    split at h
    · exact (Option.some_inj.1 h).symm
    · cases h

/-- Witness for `prototype_validation_characterization`: the tower `[1,2]`
is not descending, so construction is rejected. -/
theorem prototype_validation_characterization_witness :
    NodePrototype_new [[1, 2]] = none :=
  (prototype_validation_characterization [[1, 2]]).1.mpr (by simp [List.chain'_cons])

/-! ### Move legality characterized (claims C7, C10) -/

/-- The move-legality rule as the specification states it: source tower
non-empty, and destination tower empty or its top ring larger than the
source tower's top ring (towers list rings bottom-to-top, so the top ring
is the last element). -/
def legalMove (C : TowerSet) (i j : Nat) : Prop :=
  C.getD i [] ≠ [] ∧
    (C.getD j [] = [] ∨
      ∃ a b : Nat, (C.getD j []).getLast? = some a ∧
        (C.getD i []).getLast? = some b ∧ b < a)

theorem is_patch_valid_iff (C : TowerSet) (i j : Nat) :
    is_patch_valid C (i, j) = true ↔ legalMove C i j := by
  unfold is_patch_valid legalMove
  dsimp only
  simp only [List.getD_eq_getElem?_getD]
  by_cases hi : C[i]?.getD ([] : List Nat) = []
  · simp [hi]
  · by_cases hj : C[j]?.getD ([] : List Nat) = []
    · simp [hi, hj, List.length_pos.2 hi]
    · simp [hi, hj, List.length_pos.2 hi, List.length_eq_zero,
        List.getLastD_eq_getLast?, List.getLast?_eq_getLast _ hi,
        List.getLast?_eq_getLast _ hj]

/-- Claim C7: for in-range moves between distinct towers, the legality check
`NodePrototype._is_patch_valid` returns true iff the source tower is
non-empty and the destination tower is empty or its top ring is larger than
the source tower's top ring. -/
theorem legality_characterization :
    ∀ (C : TowerSet) (i j : Nat), i < C.length → j < C.length → i ≠ j →
      (is_patch_valid C (i, j) = true ↔ legalMove C i j) := by
  intro C i j _ _ _
  exact is_patch_valid_iff C i j

/-- Witness for `legality_characterization` on the two-tower configuration
`[[2,1],[]]` with the in-range move `(0, 1)`. -/
theorem legality_characterization_witness :
    is_patch_valid [[2, 1], []] (0, 1) = true ↔ legalMove [[2, 1], []] 0 1 :=
  legality_characterization [[2, 1], []] 0 1 (by decide) (by decide) (by decide)

/-- Claim C10: `NodePrototype.patch` runs the legality check before touching
any tower, so on an illegal move the error is raised and the object's tower
set is returned completely unchanged — no ring is popped or pushed. -/
theorem patch_illegal_leaves_unchanged :
    ∀ (C : TowerSet) (i j : Nat), ¬ legalMove C i j →
      patch_run C (i, j) = (C, false) ∧ patch C (i, j) = none := by
  intro C i j h
  have hb : is_patch_valid C (i, j) = false := by
    cases hv : is_patch_valid C (i, j)
    · rfl
    · exact absurd ((is_patch_valid_iff C i j).1 hv) h
  constructor <;> simp [patch_run, patch, hb]

/-- Witness for `patch_illegal_leaves_unchanged`: moving the larger ring 2
onto the smaller ring 1 is illegal and leaves `[[2],[1]]` untouched. -/
theorem patch_illegal_leaves_unchanged_witness :
    patch_run [[2], [1]] (0, 1) = ([[2], [1]], false) ∧
    patch [[2], [1]] (0, 1) = none :=
  patch_illegal_leaves_unchanged [[2], [1]] 0 1 (by
    rintro ⟨-, h | ⟨a, b, ha, hb, hab⟩⟩
    · exact absurd h (by decide)
    · simp at ha hb
      omega)

/-! ### History entries per connection stage (claim C8) -/

theorem length_setNode (st : GraphState) (i : Nat) (nd : NodeData) :
    (setNode st i nd).nodes.length = st.nodes.length := by
  simp [setNode]

/-- Claim C8 (amended): when a pending candidate of the propagating node `b`
matches an existing node `a`, `Node.connect` records the edge on both
endpoints and removes the candidate, but a history entry is added to the
matched node only for next-frontier matches (and for newly created nodes):
a current-frontier match leaves every node's history unchanged. -/
theorem connect_history_by_stage :
    ∀ (st : GraphState) (a b : Nat) (d : Delta),
      a < st.nodes.length → b < st.nodes.length → a ≠ b →
      ((getNode (connect st a b d NodeStage.CURRENT) a).connections
          = (getNode st a).connections ++ [b]
        ∧ (getNode (connect st a b d NodeStage.CURRENT) b).connections
          = (getNode st b).connections ++ [a]
        ∧ ∀ k, (getNode (connect st a b d NodeStage.CURRENT) k).history
          = (getNode st k).history)
      ∧ ((getNode (connect st a b d NodeStage.NEXT) a).connections
          = (getNode st a).connections ++ [b]
        ∧ (getNode (connect st a b d NodeStage.NEXT) b).connections
          = (getNode st b).connections ++ [a]
        ∧ (getNode (connect st a b d NodeStage.NEXT) a).history
          = (getNode st a).history
            ++ ((getNode st b).history.map (fun h => (h.1, h.2 ++ [d])))
            ++ [(((getNode st b).history.map Prod.fst).getLastD b, [d])]) := by
  intro st a b d ha hb hab
  have hba : b ≠ a := Ne.symm hab
  refine ⟨⟨?_, ?_, ?_⟩, ?_, ?_, ?_⟩
  · simp [connect, getNode_setNode_self, getNode_setNode_ne, length_setNode,
      ha, hb, hab, hba]
  · simp [connect, getNode_setNode_self, getNode_setNode_ne, length_setNode,
      ha, hb, hab, hba]
  · intro k
    by_cases hk : k = a
    · subst hk
      simp [connect, getNode_setNode_self, getNode_setNode_ne, length_setNode,
        ha, hb, hab, hba]
    · by_cases hk' : k = b
      · subst hk'
        simp [connect, getNode_setNode_self, getNode_setNode_ne, length_setNode,
          ha, hb, hab, hba]
      · have h1 : a ≠ k := fun h => hk h.symm
        have h2 : b ≠ k := fun h => hk' h.symm
        simp [connect, getNode_setNode_ne, h1, h2]
  · simp [connect, add_history, getNode_setNode_self, getNode_setNode_ne,
      length_setNode, ha, hb, hab, hba]
  · simp [connect, add_history, getNode_setNode_self, getNode_setNode_ne,
      length_setNode, ha, hb, hab, hba]
  · simp [connect, add_history, getNode_setNode_self, getNode_setNode_ne,
      length_setNode, ha, hb, hab, hba]

/-- Witness for `connect_history_by_stage` on a concrete two-node state. -/
theorem connect_history_by_stage_witness :
    ((getNode (connect ⟨[], [], 1, [0], [], [⟨[[1], []], [], []⟩, ⟨[[], [1]], [], []⟩]⟩
        0 1 (0, 1) NodeStage.CURRENT) 0).connections = [] ++ [1]
      ∧ (getNode (connect ⟨[], [], 1, [0], [], [⟨[[1], []], [], []⟩, ⟨[[], [1]], [], []⟩]⟩
        0 1 (0, 1) NodeStage.CURRENT) 1).connections = [] ++ [0]
      ∧ ∀ k, (getNode (connect ⟨[], [], 1, [0], [], [⟨[[1], []], [], []⟩, ⟨[[], [1]], [], []⟩]⟩
        0 1 (0, 1) NodeStage.CURRENT) k).history
        = (getNode ⟨[], [], 1, [0], [], [⟨[[1], []], [], []⟩, ⟨[[], [1]], [], []⟩]⟩ k).history)
    ∧ ((getNode (connect ⟨[], [], 1, [0], [], [⟨[[1], []], [], []⟩, ⟨[[], [1]], [], []⟩]⟩
        0 1 (0, 1) NodeStage.NEXT) 0).connections = [] ++ [1]
      ∧ (getNode (connect ⟨[], [], 1, [0], [], [⟨[[1], []], [], []⟩, ⟨[[], [1]], [], []⟩]⟩
        0 1 (0, 1) NodeStage.NEXT) 1).connections = [] ++ [0]
      ∧ (getNode (connect ⟨[], [], 1, [0], [], [⟨[[1], []], [], []⟩, ⟨[[], [1]], [], []⟩]⟩
        0 1 (0, 1) NodeStage.NEXT) 0).history
        = [] ++ (([] : List (Nat × List Delta)).map (fun h => (h.1, h.2 ++ [(0, 1)])))
          ++ [((([] : List (Nat × List Delta)).map Prod.fst).getLastD 1, [(0, 1)])]) :=
  connect_history_by_stage ⟨[], [], 1, [0], [], [⟨[[1], []], [], []⟩, ⟨[[], [1]], [], []⟩]⟩
    0 1 (0, 1) (by decide) (by decide) (by decide)

/-- Claim C8 counterexample: in the two-ring run `cexGraphB`, during round
two the candidate of node 1 (configuration `[[2],[1],[]]`) that produces
`[[2],[],[1]]` matches node 2 in the current frontier.  The two nodes are
connected — node 2's adjacency ends up `[0, 1, 4]` and node 1's `[0, 2, 3]`
— but node 2's history still holds only its creation entry: no history
entry was added for the current-frontier match, contrary to the claim. -/
theorem current_frontier_match_adds_no_history :
    (getNode (run_steps 2 cexGraphB) 2).connections = [0, 1, 4] ∧
    (getNode (run_steps 2 cexGraphB) 1).connections = [0, 2, 3] ∧
    (getNode (run_steps 2 cexGraphB) 2).history = [(0, [(0, 2)])] :=
  ⟨rfl, rfl, rfl⟩

/-! ### Structure of the generated mods -/

theorem mem_perms2 {t : Nat} {d : Delta} :
    d ∈ perms2 t ↔ d.1 < t ∧ d.2 < t ∧ d.1 ≠ d.2 := by
  cases d with
  | mk i j =>
    simp only [perms2, List.mem_flatMap, List.mem_map, List.mem_filter,
      List.mem_range, decide_eq_true_eq, Prod.mk.injEq]
    constructor
    · rintro ⟨a, ha, b, ⟨hb, hba⟩, rfl, rfl⟩
      exact ⟨ha, hb, Ne.symm hba⟩
    · rintro ⟨hi, hj, hij⟩
      exact ⟨i, hi, j, ⟨hj, Ne.symm hij⟩, rfl, rfl⟩

theorem mem_genMods {ts : TowerSet} {m : TowerSet × Delta} (h : m ∈ genMods ts) :
    m.2 ∈ perms2 ts.length ∧ check_validity ts = true ∧
      is_patch_valid ts m.2 = true ∧ m.1 = applyPatch ts m.2 := by
  unfold genMods at h
  rcases List.mem_filterMap.1 h with ⟨d, hd, hm⟩
  by_cases hc : check_validity ts && is_patch_valid ts d
  · rw [if_pos hc] at hm
    cases hm
    rw [Bool.and_eq_true] at hc
    exact ⟨hd, hc.1, hc.2, rfl⟩
  · rw [if_neg hc] at hm
    cases hm

theorem getD_mem {l : List α} {n : Nat} (d : α) (h : n < l.length) :
    l.getD n d ∈ l := by
  rw [List.getD_eq_getElem?_getD, List.getElem?_eq_getElem h]
  exact List.getElem_mem h

theorem chain'_dropLast {R : α → α → Prop} :
    ∀ (l : List α), List.Chain' R l → List.Chain' R l.dropLast
  | [], _ => by simp
  | [_], _ => by simp
  | a :: b :: l, h => by
    rcases List.chain'_cons.1 h with ⟨hab, ht⟩
    have ih := chain'_dropLast (b :: l) ht
    cases l with
    | nil => simp
    | cons c l' =>
      exact List.chain'_cons.2 ⟨hab, ih⟩

/-! ### patch preserves the puzzle invariants -/

theorem applyPatch_eq (ts : TowerSet) (i j : Nat) (hij : i ≠ j) :
    applyPatch ts (i, j)
      = (ts.set i (ts.getD i []).dropLast).set j
          (ts.getD j [] ++ [(ts.getD i []).getLastD 0]) := by
  unfold applyPatch
  dsimp only
  rw [getD_set_ne _ _ _ hij]

theorem legal_source_nonempty {ts : TowerSet} {i j : Nat}
    (h : is_patch_valid ts (i, j) = true) : ts.getD i [] ≠ [] :=
  ((is_patch_valid_iff ts i j).1 h).1

theorem legal_ne {ts : TowerSet} {i : Nat} : is_patch_valid ts (i, i) = false := by
  cases hv : is_patch_valid ts (i, i)
  · rfl
  · rcases (is_patch_valid_iff ts i i).1 hv with ⟨hne, hd | ⟨a, b, ha, hb, hab⟩⟩
    · exact absurd hd hne
    · rw [ha] at hb
      cases hb
      exact absurd hab (lt_irrefl a)

theorem getLastD_eq_getLast {l : List Nat} (h : l ≠ []) :
    l.getLastD 0 = l.getLast h := by
  rw [List.getLastD_eq_getLast?, List.getLast?_eq_getLast l h]
  rfl

theorem applyPatch_strict {ts : TowerSet} {i j : Nat}
    (hstrict : strictTowers ts) (hj : j < ts.length) (hij : i ≠ j)
    (hleg : is_patch_valid ts (i, j) = true) :
    strictTowers (applyPatch ts (i, j)) := by
  rcases (is_patch_valid_iff ts i j).1 hleg with ⟨hne, hdst⟩
  have hi : i < ts.length := by
    by_contra hlt
    exact hne (by
      rw [List.getD_eq_getElem?_getD, List.getElem?_eq_none (Nat.le_of_not_lt hlt)]
      rfl)
  rw [applyPatch_eq ts i j hij]
  intro t ht
  rcases List.mem_or_eq_of_mem_set ht with ht' | rfl
  · rcases List.mem_or_eq_of_mem_set ht' with ht'' | rfl
    · exact hstrict t ht''
    · exact chain'_dropLast _ (hstrict _ (getD_mem _ hi))
  · refine List.chain'_append.2 ⟨hstrict _ (getD_mem _ hj), List.chain'_singleton _, ?_⟩
    intro x hx y hy
    rcases hdst with hd | ⟨a, b, ha, hb, hab⟩
    · rw [hd] at hx
      cases hx
    · rw [ha] at hx
      cases hx
      rw [show ([(ts.getD i []).getLastD 0] : List Nat).head? =
            some ((ts.getD i []).getLastD 0) from rfl] at hy
      cases hy
      rw [getLastD_eq_getLast hne]
      rw [List.getLast?_eq_getLast _ hne] at hb
      cases hb
      exact hab

theorem mset_flatten_set (l : List (List Nat)) (k : Nat) (y : List Nat) :
    k < l.length →
    ((l.set k y).flatten : Multiset Nat) + (l.getD k [] : Multiset Nat)
      = (l.flatten : Multiset Nat) + (y : Multiset Nat) := by
  induction l generalizing k with
  | nil => intro hk; cases hk
  | cons t rest ih =>
    intro hk
    cases k with
    | zero =>
      show ((y :: rest).flatten : Multiset Nat) + (t : Multiset Nat)
          = ((t :: rest).flatten : Multiset Nat) + (y : Multiset Nat)
      rw [List.flatten_cons, List.flatten_cons, ← Multiset.coe_add, ← Multiset.coe_add]
      abel
    | succ k' =>
      have hk' : k' < rest.length := Nat.lt_of_succ_lt_succ hk
      show (((t :: rest.set k' y)).flatten : Multiset Nat)
            + (rest.getD k' [] : Multiset Nat)
          = ((t :: rest).flatten : Multiset Nat) + (y : Multiset Nat)
      rw [List.flatten_cons, List.flatten_cons, ← Multiset.coe_add, ← Multiset.coe_add,
        add_assoc, add_assoc, ih k' hk']

theorem applyPatch_mset {ts : TowerSet} {i j : Nat}
    (hj : j < ts.length) (hij : i ≠ j)
    (hleg : is_patch_valid ts (i, j) = true) :
    ((applyPatch ts (i, j)).flatten : Multiset Nat) = (ts.flatten : Multiset Nat) := by
  have hne : ts.getD i [] ≠ [] := legal_source_nonempty hleg
  have hi : i < ts.length := by
    by_contra hlt
    exact hne (by
      rw [List.getD_eq_getElem?_getD, List.getElem?_eq_none (Nat.le_of_not_lt hlt)]
      rfl)
  rw [applyPatch_eq ts i j hij]
  have hlenA : j < (ts.set i (ts.getD i []).dropLast).length := by
    rw [List.length_set]; exact hj
  have eq1 := mset_flatten_set (ts.set i (ts.getD i []).dropLast) j
    (ts.getD j [] ++ [(ts.getD i []).getLastD 0]) hlenA
  have eq2 := mset_flatten_set ts i ((ts.getD i []).dropLast) hi
  rw [getD_set_ne _ _ _ hij] at eq1
  have hsplit : (ts.getD i [] : Multiset Nat)
      = ((ts.getD i []).dropLast : Multiset Nat) + ([(ts.getD i []).getLastD 0] : List Nat) := by
    rw [Multiset.coe_add, Multiset.coe_eq_coe, getLastD_eq_getLast hne]
    rw [List.dropLast_concat_getLast hne]
  rw [hsplit] at eq2
  have e2 : (((ts.set i (ts.getD i []).dropLast).flatten : Multiset Nat)
        + ([(ts.getD i []).getLastD 0] : List Nat))
        + ((ts.getD i []).dropLast : List Nat)
      = (ts.flatten : Multiset Nat) + ((ts.getD i []).dropLast : List Nat) := by
    rw [← eq2]
    abel
  have eq2' : ((ts.set i (ts.getD i []).dropLast).flatten : Multiset Nat)
        + ([(ts.getD i []).getLastD 0] : List Nat)
      = (ts.flatten : Multiset Nat) := add_right_cancel e2
  have hsplit2 : ((ts.getD j [] ++ [(ts.getD i []).getLastD 0] : List Nat) : Multiset Nat)
      = (ts.getD j [] : Multiset Nat) + ([(ts.getD i []).getLastD 0] : List Nat) := by
    rw [Multiset.coe_add]
  rw [hsplit2] at eq1
  have e1 : (((ts.set i (ts.getD i []).dropLast).set j
        (ts.getD j [] ++ [(ts.getD i []).getLastD 0])).flatten : Multiset Nat)
        + (ts.getD j [] : Multiset Nat)
      = (((ts.set i (ts.getD i []).dropLast).flatten : Multiset Nat)
        + ([(ts.getD i []).getLastD 0] : List Nat))
        + (ts.getD j [] : Multiset Nat) := by
    rw [eq1]
    abel
  have eq1' := add_right_cancel e1
  rw [eq1', eq2']

/-- `strictTowers` implies the (non-strict) code-level validity check. -/
theorem strict_check_validity {ts : TowerSet} (h : strictTowers ts) :
    check_validity ts = true :=
  (check_validity_iff ts).2 fun t ht => (h t ht).imp fun _ _ hab => le_of_lt hab

/-! ### The legality round-trip (claim C6) -/

theorem applyPatch_roundtrip_core {ts : TowerSet} {i j : Nat}
    (hstrict : strictTowers ts) (hi : i < ts.length) (hj : j < ts.length)
    (hij : i ≠ j) (hleg : is_patch_valid ts (i, j) = true) :
    is_patch_valid (applyPatch ts (i, j)) (j, i) = true ∧
    applyPatch (applyPatch ts (i, j)) (j, i) = ts := by
  have hne : ts.getD i [] ≠ [] := legal_source_nonempty hleg
  have hji : j ≠ i := Ne.symm hij
  have hDj : (applyPatch ts (i, j)).getD j []
      = ts.getD j [] ++ [(ts.getD i []).getLastD 0] := by
    rw [applyPatch_eq ts i j hij,
      getD_set_self _ _ _ (by rw [List.length_set]; exact hj)]
  have hDi : (applyPatch ts (i, j)).getD i [] = (ts.getD i []).dropLast := by
    rw [applyPatch_eq ts i j hij, getD_set_ne _ _ _ hji, getD_set_self _ _ _ hi]
  have hchain : List.Chain' (· > ·) (ts.getD i []) := hstrict _ (getD_mem _ hi)
  have hsplit : (ts.getD i []).dropLast ++ [(ts.getD i []).getLastD 0] = ts.getD i [] := by
    rw [getLastD_eq_getLast hne]
    exact List.dropLast_concat_getLast hne
  constructor
  · apply (is_patch_valid_iff _ j i).2
    refine ⟨?_, ?_⟩
    · rw [hDj]
      simp
    · rw [hDi, hDj]
      by_cases hd : (ts.getD i []).dropLast = []
      · exact Or.inl hd
      · right
        refine ⟨(ts.getD i []).dropLast.getLast hd, (ts.getD i []).getLastD 0,
          List.getLast?_eq_getLast _ hd, List.getLast?_concat _, ?_⟩
        have hch := hchain
        rw [← hsplit] at hch
        have h3 := (List.chain'_append.1 hch).2.2
        exact h3 _ (Option.mem_def.2 (List.getLast?_eq_getLast _ hd)) _
          (Option.mem_def.2 rfl)
  · rw [applyPatch_eq _ j i hji, hDi, hDj]
    rw [List.dropLast_concat]
    have hr : (ts.getD j [] ++ [(ts.getD i []).getLastD 0]).getLastD 0
        = (ts.getD i []).getLastD 0 := by
      rw [List.getLastD_eq_getLast?, List.getLast?_concat]
      rfl
    rw [hr, hsplit]
    rw [applyPatch_eq ts i j hij]
    rw [List.set_set]
    have htj : ts.getD j [] = (ts.set i (ts.getD i []).dropLast).getD j [] :=
      (getD_set_ne _ _ _ hij).symm
    rw [htj, set_getD_self _ _ (by rw [List.length_set]; exact hj)]
    rw [List.set_set]
    exact set_getD_self _ _ hi

/-- Claim C6: for a strictly descending configuration `C` and an in-range
move `(i, j)` between distinct towers, a successful `patch` yields a tower
set that passes the validity check (and is itself strictly descending), the
inverse move `(j, i)` is legal on the result, and patching the inverse move
returns exactly `C`. -/
theorem patch_roundtrip :
    ∀ (C : TowerSet) (i j : Nat) (D : TowerSet),
      strictTowers C → i < C.length → j < C.length → i ≠ j →
      patch C (i, j) = some D →
      check_validity D = true ∧ strictTowers D ∧ patch D (j, i) = some C := by
  intro C i j D hstrict hi hj hij hp
  have hleg : is_patch_valid C (i, j) = true := by
    by_contra hb
    unfold patch at hp
    rw [if_neg hb] at hp
    cases hp
  unfold patch at hp
  rw [if_pos hleg] at hp
  have hD : applyPatch C (i, j) = D := Option.some_inj.1 hp
  subst hD
  have hstrictD : strictTowers (applyPatch C (i, j)) :=
    applyPatch_strict hstrict hj hij hleg
  rcases applyPatch_roundtrip_core hstrict hi hj hij hleg with ⟨hlegInv, happly⟩
  refine ⟨strict_check_validity hstrictD, hstrictD, ?_⟩
  unfold patch
  rw [if_pos hlegInv, happly]

/-- Witness for `patch_roundtrip`: moving the small ring of `[[2,1],[],[]]`
to tower 1 and back. -/
theorem patch_roundtrip_witness :
    check_validity [[2], [1], []] = true ∧ strictTowers [[2], [1], []] ∧
    patch [[2], [1], []] (1, 0) = some [[2, 1], [], []] :=
  patch_roundtrip [[2, 1], [], []] 0 1 [[2], [1], []]
    (by
      intro t ht
      simp only [List.mem_cons, List.not_mem_nil, or_false] at ht
      rcases ht with rfl | rfl | rfl <;> simp [List.chain'_cons])
    (by decide) (by decide) (by decide) rfl

/-! ### A per-node invariant preserved by the whole search (claim C5) -/

/-- Every node of the arena satisfies `P` on its configuration. -/
def NodesP (P : TowerSet → Prop) (st : GraphState) : Prop :=
  ∀ nd ∈ st.nodes, P nd.data

theorem nodesP_getNode {P : TowerSet → Prop} {st : GraphState} {k : Nat}
    (h : NodesP P st) (hk : k < st.nodes.length) : P (getNode st k).data :=
  h _ (getD_mem _ hk)

theorem nodesP_setNode {P : TowerSet → Prop} {st : GraphState} {i : Nat}
    {nd : NodeData} (h : NodesP P st)
    (hnd : i < st.nodes.length → P nd.data) : NodesP P (setNode st i nd) := by
  intro x hx
  by_cases hi : i < st.nodes.length
  · rcases List.mem_or_eq_of_mem_set hx with hx' | rfl
    · exact h x hx'
    · exact hnd hi
  · have hset : st.nodes.set i nd = st.nodes :=
      List.set_eq_of_length_le (Nat.le_of_not_lt hi)
    unfold setNode at hx
    rw [hset] at hx
    exact h x hx

theorem nodesP_add_history {P : TowerSet → Prop} {st : GraphState}
    (a b : Nat) (d : Delta) (h : NodesP P st) : NodesP P (add_history st a b d) := by
  unfold add_history
  exact nodesP_setNode h (fun hlt => nodesP_getNode h hlt)

theorem nodesP_connect {P : TowerSet → Prop} {st : GraphState}
    (a b : Nat) (d : Delta) (s : NodeStage) (h : NodesP P st) :
    NodesP P (connect st a b d s) := by
  have h1 : NodesP P (setNode st a
      { getNode st a with connections := (getNode st a).connections ++ [b] }) :=
    nodesP_setNode h (fun hlt => nodesP_getNode h hlt)
  have h2 : NodesP P (setNode (setNode st a
      { getNode st a with connections := (getNode st a).connections ++ [b] }) b
      { getNode (setNode st a
          { getNode st a with connections := (getNode st a).connections ++ [b] }) b with
        connections := (getNode (setNode st a
          { getNode st a with connections := (getNode st a).connections ++ [b] }) b).connections
            ++ [a] }) :=
    nodesP_setNode h1 (fun hlt => nodesP_getNode h1 hlt)
  cases s with
  | CURRENT => exact h2
  | NEXT => exact nodesP_add_history a b d h2
  | PROTOTYPE => exact nodesP_add_history a b d h2

theorem nodesP_foldl_connect {P : TowerSet → Prop} (a : Nat) (ids : List Nat)
    (s : NodeStage) (mods : List (TowerSet × Delta)) :
    ∀ (L : List (Nat × Nat)) (st : GraphState), NodesP P st →
      NodesP P (L.foldl (fun acc m =>
        connect acc (ids.getD m.2 0) a ((mods.getD m.1 ([], (0, 0))).2) s) st) := by
  intro L
  induction L with
  | nil => intro st h; exact h
  | cons x xs ih =>
    intro st h
    rw [List.foldl_cons]
    exact ih _ (nodesP_connect _ _ _ _ h)

theorem nodesP_connect_list {P : TowerSet → Prop} {st : GraphState} (a : Nat)
    (ids : List Nat) (s : NodeStage) (mods : List (TowerSet × Delta))
    (h : NodesP P st) : NodesP P (connect_list st a ids s mods).1 := by
  unfold connect_list
  exact nodesP_foldl_connect a ids s mods _ st h

theorem foldl_eraseIdx_sublist :
    ∀ (L : List Nat) (l : List α),
      List.Sublist (L.foldl (fun acc i => acc.eraseIdx i) l) l := by
  intro L
  induction L with
  | nil => intro l; exact List.Sublist.refl l
  | cons i L ih =>
    intro l
    rw [List.foldl_cons]
    exact (ih (l.eraseIdx i)).trans (List.eraseIdx_sublist l i)

theorem pop_list_sublist (idxs : List Nat) (l : List α) :
    List.Sublist (pop_list idxs l) l :=
  foldl_eraseIdx_sublist _ l

theorem filter_out_sublist (mods : List (TowerSet × Delta)) (tsl : List TowerSet) :
    List.Sublist (filter_out mods tsl) mods :=
  pop_list_sublist _ _

theorem connect_list_snd_sublist (st : GraphState) (a : Nat) (ids : List Nat)
    (s : NodeStage) (mods : List (TowerSet × Delta)) :
    List.Sublist (connect_list st a ids s mods).2 mods := by
  unfold connect_list
  exact pop_list_sublist _ _

theorem getNode_out_of_range {st : GraphState} {i : Nat}
    (h : st.nodes.length ≤ i) : getNode st i = ⟨[], [], []⟩ := by
  unfold getNode
  rw [List.getD_eq_getElem?_getD, List.getElem?_eq_none h]
  rfl

theorem nodesP_arena_append {P : TowerSet → Prop} {st : GraphState}
    (mods : List (TowerSet × Delta)) (h : NodesP P st)
    (hm : ∀ m ∈ mods, P m.1) :
    NodesP P { st with nodes := st.nodes ++ mods.map (fun m => ⟨m.1, [], []⟩) } := by
  intro nd hnd
  rcases List.mem_append.1 hnd with hnd | hnd
  · exact h nd hnd
  · rcases List.mem_map.1 hnd with ⟨m, hmm, rfl⟩
    exact hm m hmm

theorem nodesP_propagate {P : TowerSet → Prop} {st : GraphState} (i : Nat)
    (hP : ∀ (ts : TowerSet) (m : TowerSet × Delta), P ts → m ∈ genMods ts → P m.1)
    (h : NodesP P st) : NodesP P (propagate st i) := by
  unfold propagate
  dsimp only
  apply nodesP_connect_list
  apply nodesP_arena_append
  · exact nodesP_connect_list _ _ _ _ (nodesP_connect_list _ _ _ _ h)
  · intro m hm
    have hm1 := (connect_list_snd_sublist _ _ _ _ _).subset hm
    have hm2 := (connect_list_snd_sublist _ _ _ _ _).subset hm1
    have hm3 := (filter_out_sublist _ _).subset hm2
    by_cases hi : i < st.nodes.length
    · exact hP _ _ (nodesP_getNode h hi) hm3
    · rw [getNode_out_of_range (Nat.le_of_not_lt hi)] at hm3
      cases hm3

theorem nodesP_check_pinned {P : TowerSet → Prop} {st : GraphState} (i : Nat)
    (h : NodesP P st) : NodesP P (check_pinned st i) := h

theorem nodesP_process_current {P : TowerSet → Prop}
    (hP : ∀ (ts : TowerSet) (m : TowerSet × Delta), P ts → m ∈ genMods ts → P m.1)
    {st : GraphState} (h : NodesP P st) : NodesP P (process_current st) := by
  unfold process_current
  dsimp only
  have H : ∀ (L : List Nat) (st' : GraphState), NodesP P st' →
      NodesP P (L.foldl (fun acc nid => check_pinned (propagate acc nid) nid) st') := by
    intro L
    induction L with
    | nil => intro st' h'; exact h'
    | cons x xs ih =>
      intro st' h'
      rw [List.foldl_cons]
      exact ih _ (nodesP_check_pinned _ (nodesP_propagate _ hP h'))
  exact H _ st h

theorem nodesP_run_steps {P : TowerSet → Prop}
    (hP : ∀ (ts : TowerSet) (m : TowerSet × Delta), P ts → m ∈ genMods ts → P m.1) :
    ∀ (n : Nat) {st : GraphState}, NodesP P st → NodesP P (run_steps n st) := by
  intro n
  induction n with
  | zero => intro st h; exact h
  | succ n ih =>
    intro st h
    rw [run_steps]
    split
    · exact ih (nodesP_process_current hP h)
    · exact h

theorem genMods_step {start : TowerSet} :
    ∀ (ts : TowerSet) (m : TowerSet × Delta),
      (strictTowers ts ∧ (ts.flatten : Multiset Nat) = (start.flatten : Multiset Nat)) →
      m ∈ genMods ts →
      strictTowers m.1 ∧ (m.1.flatten : Multiset Nat) = (start.flatten : Multiset Nat) := by
  intro ts m hP hm
  rcases hP with ⟨hstr, hms⟩
  rcases mem_genMods hm with ⟨hperm, _, hleg, hts⟩
  rcases m with ⟨mts, di, dj⟩
  rcases mem_perms2.1 hperm with ⟨h1, h2, h12⟩
  dsimp only at hleg hts h1 h2 h12 ⊢
  subst hts
  constructor
  · exact applyPatch_strict hstr h2 h12 hleg
  · rw [applyPatch_mset h2 h12 hleg, hms]

/-- Claim C5: starting from a configuration whose towers are all strictly
descending, every node ever materialized in any run — whatever targets are
pinned and however many rounds are executed — has a strictly descending
configuration (invariant I1) whose multiset of ring sizes equals the start's
(invariant I2); and applying any single legal in-range move preserves both
invariants. -/
theorem node_invariants :
    (∀ (start : TowerSet) (rings : Nat) (ps : List TowerSet) (n : Nat),
      strictTowers start →
      ∀ nd ∈ (run_steps n (withPinned (mkGraph start rings) ps)).nodes,
        strictTowers nd.data ∧
          (nd.data.flatten : Multiset Nat) = (start.flatten : Multiset Nat))
    ∧ (∀ (C : TowerSet) (d : Delta), strictTowers C →
        is_patch_valid C d = true → d.1 < C.length → d.2 < C.length →
        strictTowers (applyPatch C d) ∧
          ((applyPatch C d).flatten : Multiset Nat) = (C.flatten : Multiset Nat)) := by
  constructor
  · intro start rings ps n hstart
    have h0 : NodesP (fun ts => strictTowers ts ∧
        (ts.flatten : Multiset Nat) = (start.flatten : Multiset Nat))
        (withPinned (mkGraph start rings) ps) := by
      intro nd hnd
      rcases List.mem_singleton.1 hnd with rfl
      exact ⟨hstart, rfl⟩
    exact nodesP_run_steps genMods_step n h0
  · intro C d hstr hleg h1 h2
    rcases d with ⟨i, j⟩
    dsimp only at hleg h1 h2 ⊢
    by_cases hij : i = j
    · subst hij
      rw [legal_ne] at hleg
      cases hleg
    · exact ⟨applyPatch_strict hstr h2 hij hleg,
        applyPatch_mset h2 hij hleg⟩

/-- Witness for `node_invariants`: the seed node of a fresh one-ring graph,
and the legal move `(0, 1)` on `[[2,1],[]]`. -/
theorem node_invariants_witness :
    (strictTowers ([[1], []] : TowerSet) ∧
      ((([[1], []] : TowerSet)).flatten : Multiset Nat)
        = ((([[1], []] : TowerSet)).flatten : Multiset Nat)) ∧
    (strictTowers (applyPatch [[2, 1], []] (0, 1)) ∧
      ((applyPatch [[2, 1], []] (0, 1)).flatten : Multiset Nat)
        = (([[2, 1], []] : TowerSet).flatten : Multiset Nat)) := by
  constructor
  · exact node_invariants.1 [[1], []] 1 [] 0
      (by
        intro t ht
        simp only [List.mem_cons, List.not_mem_nil, or_false] at ht
        rcases ht with rfl | rfl <;> simp)
      ⟨[[1], []], [], []⟩ (List.mem_singleton.2 rfl)
  · exact node_invariants.2 [[2, 1], []] (0, 1)
      (by
        intro t ht
        simp only [List.mem_cons, List.not_mem_nil, or_false] at ht
        rcases ht with rfl | rfl <;> simp [List.chain'_cons])
      rfl (by decide) (by decide)

/-! ### Positional behaviour of pop_list and get_matching_index (claim C4) -/

theorem nodup_getElem?_inj {l : List α} (h : l.Nodup) {p q : Nat} {a : α}
    (hp : l[p]? = some a) (hq : l[q]? = some a) : p = q := by
  rcases List.getElem?_eq_some.1 hp with ⟨hplt, hpe⟩
  rcases List.getElem?_eq_some.1 hq with ⟨hqlt, hqe⟩
  exact (h.getElem_inj_iff).1 (hpe.trans hqe.symm)

theorem exists_getElem?_of_mem_foldl_eraseIdx :
    ∀ (L : List Nat), List.Pairwise (· > ·) L → ∀ (l : List α) (x : α),
      x ∈ L.foldl (fun acc i => acc.eraseIdx i) l →
      ∃ p, l[p]? = some x ∧ p ∉ L := by
  intro L
  induction L with
  | nil =>
    intro _ l x hx
    rcases List.mem_iff_getElem?.1 hx with ⟨p, hp⟩
    exact ⟨p, hp, List.not_mem_nil p⟩
  | cons i L ih =>
    intro hpw l x hx
    rcases List.pairwise_cons.1 hpw with ⟨hgt, hL⟩
    rw [List.foldl_cons] at hx
    rcases ih hL (l.eraseIdx i) x hx with ⟨p, hp, hpL⟩
    by_cases hpi : p < i
    · rw [List.getElem?_eraseIdx_of_lt l i p hpi] at hp
      refine ⟨p, hp, ?_⟩
      intro hmem
      rcases List.mem_cons.1 hmem with rfl | hmem
      · exact absurd rfl (Nat.ne_of_lt hpi)
      · exact hpL hmem
    · rw [List.getElem?_eraseIdx_of_ge l i p (Nat.le_of_not_lt hpi)] at hp
      refine ⟨p + 1, hp, ?_⟩
      intro hmem
      rcases List.mem_cons.1 hmem with heq | hmem
      · omega
      · have := hgt _ hmem
        exact hpL (by
          have hp1 : p + 1 - 1 = p := rfl
          exact absurd hmem (by omega))

theorem getElem?_not_mem_foldl_eraseIdx :
    ∀ (L : List Nat), List.Pairwise (· > ·) L → ∀ (l : List α) (x : α) (p : Nat),
      l[p]? = some x → p ∉ L →
      x ∈ L.foldl (fun acc i => acc.eraseIdx i) l := by
  intro L
  induction L with
  | nil =>
    intro _ l x p hp _
    exact List.mem_iff_getElem?.2 ⟨p, hp⟩
  | cons i L ih =>
    intro hpw l x p hp hpL
    rcases List.pairwise_cons.1 hpw with ⟨hgt, hL⟩
    rw [List.foldl_cons]
    have hpi : p ≠ i := fun h => hpL (h ▸ List.mem_cons_self i L)
    by_cases hlt : p < i
    · apply ih hL (l.eraseIdx i) x p
      · rw [List.getElem?_eraseIdx_of_lt l i p hlt]
        exact hp
      · intro hm
        exact hpL (List.mem_cons_of_mem _ hm)
    · have hge' : i < p := Nat.lt_of_le_of_ne (Nat.le_of_not_lt hlt)
        (fun h => hpi h.symm)
      apply ih hL (l.eraseIdx i) x (p - 1)
      · rw [List.getElem?_eraseIdx_of_ge l i (p - 1) (by omega)]
        rw [show p - 1 + 1 = p by omega]
        exact hp
      · intro hm
        have := hgt _ hm
        omega

theorem pop_list_desc_pairwise {idxs : List Nat} (h : idxs.Nodup) :
    List.Pairwise (· > ·) ((List.insertionSort (· ≤ ·) idxs).reverse) := by
  have hsorted : List.Sorted (· ≤ ·) (List.insertionSort (· ≤ ·) idxs) :=
    List.sorted_insertionSort _ idxs
  have hrev : List.Pairwise (· ≥ ·) ((List.insertionSort (· ≤ ·) idxs).reverse) :=
    List.pairwise_reverse.2 hsorted
  have hnd : ((List.insertionSort (· ≤ ·) idxs).reverse).Nodup := by
    rw [List.nodup_reverse]
    exact ((List.perm_insertionSort _ idxs).nodup_iff).2 h
  exact (hrev.and hnd).imp
    (fun hab => Nat.lt_of_le_of_ne hab.1 (Ne.symm hab.2))

theorem mem_pop_list_iff {idxs : List Nat} {l : List α} (hnd : idxs.Nodup) (x : α) :
    x ∈ pop_list idxs l ↔ ∃ p, l[p]? = some x ∧ p ∉ idxs := by
  unfold pop_list
  have hpw := pop_list_desc_pairwise hnd
  have hmem : ∀ p : Nat, p ∈ (List.insertionSort (· ≤ ·) idxs).reverse ↔ p ∈ idxs := by
    intro p
    rw [List.mem_reverse]
    exact (List.perm_insertionSort _ idxs).mem_iff
  constructor
  · intro hx
    rcases exists_getElem?_of_mem_foldl_eraseIdx _ hpw l x hx with ⟨p, hp, hpn⟩
    exact ⟨p, hp, fun hm => hpn ((hmem p).2 hm)⟩
  · rintro ⟨p, hp, hpn⟩
    exact getElem?_not_mem_foldl_eraseIdx _ hpw l x p hp (fun hm => hpn ((hmem p).1 hm))

theorem mem_get_matching_index {l1 l2 : List TowerSet} {i j : Nat} :
    (i, j) ∈ get_matching_index l1 l2 ↔
      ∃ x, l1[i]? = some x ∧ l2[j]? = some x := by
  unfold get_matching_index
  simp only [List.mem_flatMap, List.mem_filterMap]
  constructor
  · rintro ⟨p, hp, q, hq, hpq⟩
    by_cases hbeq : p.2 == q.2
    · rw [if_pos hbeq] at hpq
      have h1 : p.1 = i := congrArg Prod.fst (Option.some_inj.1 hpq)
      have h2 : q.1 = j := congrArg Prod.snd (Option.some_inj.1 hpq)
      have hval : p.2 = q.2 := beq_iff_eq.1 hbeq
      have hp' : l1[p.1]? = some p.2 := List.mem_enum_iff_getElem?.1 hp
      have hq' : l2[q.1]? = some q.2 := List.mem_enum_iff_getElem?.1 hq
      refine ⟨q.2, ?_, ?_⟩
      · rw [← h1, hp', hval]
      · rw [← h2, hq']
    · rw [if_neg hbeq] at hpq
      cases hpq
  · rintro ⟨x, h1, h2⟩
    refine ⟨(i, x), ?_, (j, x), ?_, ?_⟩
    · exact List.mem_enum_iff_getElem?.2 h1
    · exact List.mem_enum_iff_getElem?.2 h2
    · rw [if_pos (beq_self_eq_true x)]

theorem filterMap_if (P : α → Bool) (g : α → β) (l : List α) :
    l.filterMap (fun q => if P q then some (g q) else none)
      = (l.filter P).map g := by
  induction l with
  | nil => rfl
  | cons a l ih =>
    by_cases h : P a <;> simp [List.filterMap_cons, List.filter_cons, h, ih]

theorem nodup_enum (l : List α) : l.enum.Nodup :=
  List.Nodup.of_map Prod.fst (List.nodup_enum_map_fst l)

theorem filter_matches_le_one {l2 : List TowerSet} (h2 : l2.Nodup) (x : TowerSet) :
    (l2.enum.filter (fun q => x == q.2)).length ≤ 1 := by
  by_contra hgt
  push_neg at hgt
  have h0 : 0 < (l2.enum.filter (fun q => x == q.2)).length := by omega
  have h1 : 1 < (l2.enum.filter (fun q => x == q.2)).length := hgt
  have hnd : (l2.enum.filter (fun q => x == q.2)).Nodup :=
    (nodup_enum l2).filter _
  have hm0 := List.getElem_mem h0
  have hm1 := List.getElem_mem h1
  rw [List.mem_filter] at hm0 hm1
  have hv0 : ((l2.enum.filter (fun q => x == q.2))[0]).2 = x :=
    (beq_iff_eq.1 hm0.2).symm
  have hv1 : ((l2.enum.filter (fun q => x == q.2))[1]).2 = x :=
    (beq_iff_eq.1 hm1.2).symm
  have he0 : l2[((l2.enum.filter (fun q => x == q.2))[0]).1]? = some x := by
    have := List.mem_enum_iff_getElem?.1 hm0.1
    rwa [hv0] at this
  have he1 : l2[((l2.enum.filter (fun q => x == q.2))[1]).1]? = some x := by
    have := List.mem_enum_iff_getElem?.1 hm1.1
    rwa [hv1] at this
  have hfst : ((l2.enum.filter (fun q => x == q.2))[0]).1
      = ((l2.enum.filter (fun q => x == q.2))[1]).1 :=
    nodup_getElem?_inj h2 he0 he1
  have heq : (l2.enum.filter (fun q => x == q.2))[0]
      = (l2.enum.filter (fun q => x == q.2))[1] := by
    apply Prod.ext hfst
    rw [hv0, hv1]
  exact absurd (hnd.getElem_inj_iff.1 heq) (by omega)

theorem gmi_fst_nodup {l1 l2 : List TowerSet} (h2 : l2.Nodup) :
    ((get_matching_index l1 l2).map Prod.fst).Nodup := by
  unfold get_matching_index
  rw [List.map_flatMap]
  apply List.nodup_flatMap.2
  constructor
  · intro p _
    have hmaps : (l2.enum.filterMap fun q =>
          if p.2 == q.2 then some (p.1, q.1) else none).map Prod.fst
        = l2.enum.filterMap (fun q => if p.2 == q.2 then some p.1 else none) := by
      rw [List.map_filterMap]
      congr 1
      funext q
      by_cases h : p.2 == q.2 <;> simp [h]
    rw [hmaps, filterMap_if (fun q => p.2 == q.2) (fun _ => p.1) l2.enum]
    rw [List.map_const']
    exact List.nodup_replicate.2 (filter_matches_le_one h2 p.2)
  · have hpfst : l1.enum.Pairwise (fun p p' => p.1 ≠ p'.1) :=
      List.pairwise_map.1 (List.nodup_enum_map_fst l1)
    apply hpfst.imp
    intro p p' hne a ha ha'
    rw [List.mem_map] at ha ha'
    rcases ha with ⟨b, hb, rfl⟩
    rcases ha' with ⟨b', hb', hbb⟩
    rw [List.mem_filterMap] at hb hb'
    rcases hb with ⟨q, _, hq⟩
    rcases hb' with ⟨q', _, hq'⟩
    have h1 : b.1 = p.1 := by
      by_cases h : p.2 == q.2
      · rw [if_pos h] at hq
        rw [← Option.some_inj.1 hq]
      · rw [if_neg h] at hq
        cases hq
    have h2' : b'.1 = p'.1 := by
      by_cases h : p'.2 == q'.2
      · rw [if_pos h] at hq'
        rw [← Option.some_inj.1 hq']
      · rw [if_neg h] at hq'
        cases hq'
    exact hne (h1 ▸ hbb ▸ h2')

/-! ### Distinctness of generated successor configurations (claim C4) -/

theorem applyPatch_getD_src {ts : TowerSet} {i j : Nat} (hij : i ≠ j)
    (hi : i < ts.length) :
    (applyPatch ts (i, j)).getD i [] = (ts.getD i []).dropLast := by
  rw [applyPatch_eq ts i j hij, getD_set_ne _ _ _ (Ne.symm hij),
    getD_set_self _ _ _ hi]

theorem applyPatch_getD_dst {ts : TowerSet} {i j : Nat} (hij : i ≠ j)
    (hj : j < ts.length) :
    (applyPatch ts (i, j)).getD j []
      = ts.getD j [] ++ [(ts.getD i []).getLastD 0] := by
  rw [applyPatch_eq ts i j hij,
    getD_set_self _ _ _ (by rw [List.length_set]; exact hj)]

theorem applyPatch_getD_other {ts : TowerSet} {i j k : Nat} (hij : i ≠ j)
    (hki : k ≠ i) (hkj : k ≠ j) :
    (applyPatch ts (i, j)).getD k [] = ts.getD k [] := by
  rw [applyPatch_eq ts i j hij, getD_set_ne _ _ _ (Ne.symm hkj),
    getD_set_ne _ _ _ (Ne.symm hki)]

theorem legal_src_lt {ts : TowerSet} {i j : Nat}
    (hleg : is_patch_valid ts (i, j) = true) : i < ts.length := by
  by_contra hlt
  exact legal_source_nonempty hleg (by
    rw [List.getD_eq_getElem?_getD, List.getElem?_eq_none (Nat.le_of_not_lt hlt)]
    rfl)

theorem applyPatch_ne_self {ts : TowerSet} {i j : Nat} (hij : i ≠ j)
    (hleg : is_patch_valid ts (i, j) = true) : applyPatch ts (i, j) ≠ ts := by
  intro heq
  have hne := legal_source_nonempty hleg
  have hpos : 0 < (ts.getD i []).length := List.length_pos.2 hne
  have h1 := applyPatch_getD_src hij (legal_src_lt hleg)
  rw [heq] at h1
  have hlen := congrArg List.length h1
  rw [List.length_dropLast] at hlen
  omega

theorem applyPatch_inj {ts : TowerSet} {i j i' j' : Nat}
    (hj : j < ts.length) (hij : i ≠ j)
    (hj' : j' < ts.length) (hij' : i' ≠ j')
    (hleg : is_patch_valid ts (i, j) = true)
    (hleg' : is_patch_valid ts (i', j') = true)
    (heq : applyPatch ts (i, j) = applyPatch ts (i', j')) : i = i' ∧ j = j' := by
  have hi : i < ts.length := legal_src_lt hleg
  have hi' : i' < ts.length := legal_src_lt hleg'
  have hne := legal_source_nonempty hleg
  have hne' := legal_source_nonempty hleg'
  have hpos : 0 < (ts.getD i []).length := List.length_pos.2 hne
  have hpos' : 0 < (ts.getD i' []).length := List.length_pos.2 hne'
  have hjj : j = j' := by
    by_contra hjj
    have hL := congrArg (fun t : TowerSet => (t.getD j []).length) heq
    dsimp only at hL
    rw [applyPatch_getD_dst hij hj] at hL
    by_cases hji' : j = i'
    · subst hji'
      rw [applyPatch_getD_src hij' hj] at hL
      rw [List.length_append, List.length_dropLast] at hL
      simp at hL
      omega
    · rw [applyPatch_getD_other hij' hji' hjj] at hL
      rw [List.length_append] at hL
      simp at hL
  subst hjj
  have hii : i = i' := by
    by_contra hii
    have hL := congrArg (fun t : TowerSet => (t.getD i []).length) heq
    dsimp only at hL
    rw [applyPatch_getD_src hij hi] at hL
    rw [applyPatch_getD_other hij' hii hij] at hL
    rw [List.length_dropLast] at hL
    omega
  exact ⟨hii, rfl⟩

theorem nodup_filterMap_on {f : α → Option β} {l : List α}
    (h : ∀ a ∈ l, ∀ a' ∈ l, ∀ b, b ∈ f a → b ∈ f a' → a = a') (hl : l.Nodup) :
    (l.filterMap f).Nodup := by
  induction l with
  | nil => simp
  | cons x l ih =>
    rw [List.filterMap_cons]
    rcases List.nodup_cons.1 hl with ⟨hx, hl'⟩
    have hrest : (l.filterMap f).Nodup :=
      ih (fun a ha a' ha' b hb hb' =>
        h a (List.mem_cons_of_mem _ ha) a' (List.mem_cons_of_mem _ ha') b hb hb') hl'
    cases hfx : f x with
    | none => exact hrest
    | some b =>
      refine List.nodup_cons.2 ⟨?_, hrest⟩
      intro hmem
      rcases List.mem_filterMap.1 hmem with ⟨a, ha, hfa⟩
      have hxa : x = a :=
        h x (List.mem_cons_self x l) a (List.mem_cons_of_mem _ ha) b
          (Option.mem_def.2 hfx) (Option.mem_def.2 hfa)
      exact hx (hxa ▸ ha)

theorem perms2_nodup (t : Nat) : (perms2 t).Nodup := by
  unfold perms2
  apply List.nodup_flatMap.2
  constructor
  · intro i _
    exact List.Nodup.map_on
      (fun x _ y _ h => congrArg Prod.snd h)
      ((List.nodup_range t).filter _)
  · apply (List.nodup_range t).imp
    intro a b hne x hxa hxb
    rw [List.mem_map] at hxa hxb
    rcases hxa with ⟨c, _, rfl⟩
    rcases hxb with ⟨c', _, hcc⟩
    exact hne (congrArg Prod.fst hcc).symm

theorem genMods_fst_nodup (ts : TowerSet) : ((genMods ts).map Prod.fst).Nodup := by
  unfold genMods
  rw [List.map_filterMap]
  apply nodup_filterMap_on ?_ (perms2_nodup ts.length)
  intro a ha a' ha' b hb hb'
  rcases mem_perms2.1 ha with ⟨ha1, ha2, ha3⟩
  rcases mem_perms2.1 ha' with ⟨ha1', ha2', ha3'⟩
  by_cases hg : check_validity ts && is_patch_valid ts a
  · by_cases hg' : check_validity ts && is_patch_valid ts a'
    · rw [if_pos hg] at hb
      rw [if_pos hg'] at hb'
      simp only [Option.map_some', Option.mem_def, Option.some_inj] at hb hb'
      have heq : applyPatch ts a = applyPatch ts a' := by
        rw [hb, hb']
      rw [Bool.and_eq_true] at hg hg'
      rcases a with ⟨i, j⟩
      rcases a' with ⟨i', j'⟩
      dsimp only at ha1 ha2 ha3 ha1' ha2' ha3' heq hg hg'
      rcases applyPatch_inj ha2 ha3 ha2' ha3' hg.2 hg'.2 heq with ⟨rfl, rfl⟩
      rfl
    · rw [if_neg hg'] at hb'
      simp at hb'
  · rw [if_neg hg] at hb
    simp at hb

/-! ### Elementary effects of connect on the graph state (claim C4) -/

theorem data_setNode_self_preserve {S : GraphState} {p : Nat} {nd : NodeData}
    (hd : nd.data = (getNode S p).data) (k : Nat) :
    (getNode (setNode S p nd) k).data = (getNode S k).data := by
  by_cases hpk : p = k
  · subst hpk
    by_cases hp : p < S.nodes.length
    · rw [getNode_setNode_self _ hp, hd]
    · unfold setNode getNode
      rw [List.set_eq_of_length_le (Nat.le_of_not_lt hp)]
  · rw [getNode_setNode_ne _ hpk]

theorem connect_len (S : GraphState) (y i : Nat) (d : Delta) (s : NodeStage) :
    (connect S y i d s).nodes.length = S.nodes.length := by
  cases s <;> simp [connect, add_history, setNode]

theorem data_add_history (S : GraphState) (a b : Nat) (d : Delta) (k : Nat) :
    (getNode (add_history S a b d) k).data = (getNode S k).data := by
  unfold add_history
  dsimp only
  exact data_setNode_self_preserve (by rfl) k

theorem connect_data (S : GraphState) (y i : Nat) (d : Delta) (s : NodeStage)
    (k : Nat) : (getNode (connect S y i d s) k).data = (getNode S k).data := by
  have e1 : ∀ m, (getNode (setNode S y
      { getNode S y with connections := (getNode S y).connections ++ [i] }) m).data
      = (getNode S m).data := data_setNode_self_preserve (by rfl)
  have e2 : ∀ m, (getNode (setNode (setNode S y
      { getNode S y with connections := (getNode S y).connections ++ [i] }) i
      { getNode (setNode S y
          { getNode S y with connections := (getNode S y).connections ++ [i] }) i with
        connections := (getNode (setNode S y
          { getNode S y with connections := (getNode S y).connections ++ [i] }) i).connections
            ++ [y] }) m).data
      = (getNode S m).data := fun m => (data_setNode_self_preserve (by rfl) m).trans (e1 m)
  cases s with
  | CURRENT => exact e2 k
  | NEXT =>
    exact (data_add_history (setNode (setNode S y
      { getNode S y with connections := (getNode S y).connections ++ [i] }) i
      { getNode (setNode S y
          { getNode S y with connections := (getNode S y).connections ++ [i] }) i with
        connections := (getNode (setNode S y
          { getNode S y with connections := (getNode S y).connections ++ [i] }) i).connections
            ++ [y] }) y i d k).trans (e2 k)
  | PROTOTYPE =>
    exact (data_add_history (setNode (setNode S y
      { getNode S y with connections := (getNode S y).connections ++ [i] }) i
      { getNode (setNode S y
          { getNode S y with connections := (getNode S y).connections ++ [i] }) i with
        connections := (getNode (setNode S y
          { getNode S y with connections := (getNode S y).connections ++ [i] }) i).connections
            ++ [y] }) y i d k).trans (e2 k)

theorem connect_cur (S : GraphState) (y i : Nat) (d : Delta) (s : NodeStage) :
    (connect S y i d s).current_nodes = S.current_nodes := by
  cases s <;> rfl

theorem connect_pin (S : GraphState) (y i : Nat) (d : Delta) (s : NodeStage) :
    (connect S y i d s).pinned = S.pinned := by
  cases s <;> rfl

theorem connect_next (S : GraphState) (y i : Nat) (d : Delta) (s : NodeStage) :
    (connect S y i d s).next_nodes
      = S.next_nodes ++ (if s = NodeStage.PROTOTYPE then [y] else []) := by
  cases s <;> simp [connect, add_history, setNode]

theorem getNode_update_next (S : GraphState) (l : List Nat) (k : Nat) :
    getNode { S with next_nodes := l } k = getNode S k := rfl

theorem connect_conn_self {S : GraphState} {y i : Nat} (d : Delta) (s : NodeStage)
    (hy : y < S.nodes.length) (hne : y ≠ i) :
    (getNode (connect S y i d s) y).connections
      = (getNode S y).connections ++ [i] := by
  have hne' : i ≠ y := Ne.symm hne
  cases s <;>
    simp [connect, add_history, getNode_setNode_self, getNode_setNode_ne,
      length_setNode, getNode_update_next, hy, hne, hne']

theorem connect_conn_peer {S : GraphState} {y i : Nat} (d : Delta) (s : NodeStage)
    (hi : i < S.nodes.length) (hne : y ≠ i) :
    (getNode (connect S y i d s) i).connections
      = (getNode S i).connections ++ [y] := by
  have hne' : i ≠ y := Ne.symm hne
  cases s <;>
    simp [connect, add_history, getNode_setNode_self, getNode_setNode_ne,
      length_setNode, getNode_update_next, hi, hne, hne']

theorem connect_conn_other {S : GraphState} {y i k : Nat} (d : Delta)
    (s : NodeStage) (hky : k ≠ y) (hki : k ≠ i) :
    (getNode (connect S y i d s) k).connections = (getNode S k).connections := by
  have h1 : y ≠ k := Ne.symm hky
  have h2 : i ≠ k := Ne.symm hki
  cases s <;>
    simp [connect, add_history, getNode_setNode_ne, getNode_update_next, h1, h2]

/-! ### Specification of one matching pass of propagate (claim C4) -/

/-- The cumulative effect of connecting the propagating node `i` to the
receivers listed in `cs` (each with its move) at stage `s`. -/
structure PassOut (S : GraphState) (i : Nat) (s : NodeStage)
    (cs : List (Nat × Delta)) (S' : GraphState) : Prop where
  len : S'.nodes.length = S.nodes.length
  data : ∀ k, (getNode S' k).data = (getNode S k).data
  cur : S'.current_nodes = S.current_nodes
  pin : S'.pinned = S.pinned
  nxt : S'.next_nodes
    = S.next_nodes ++ (if s = NodeStage.PROTOTYPE then cs.map Prod.fst else [])
  conn_i : (getNode S' i).connections
    = (getNode S i).connections ++ cs.map Prod.fst
  conn_r : ∀ c ∈ cs,
    (getNode S' c.1).connections = (getNode S c.1).connections ++ [i]
  conn_o : ∀ k, k ≠ i → k ∉ cs.map Prod.fst →
    (getNode S' k).connections = (getNode S k).connections

/-- Preconditions for a matching pass: the propagating node and all
receivers are live, receivers are distinct, differ from the propagating
node and are not yet connected to it. -/
def PassPre (S : GraphState) (i : Nat) (cs : List (Nat × Delta)) : Prop :=
  i < S.nodes.length ∧ (cs.map Prod.fst).Nodup ∧
  ∀ c ∈ cs, c.1 < S.nodes.length ∧ c.1 ≠ i ∧
    c.1 ∉ (getNode S i).connections ∧ i ∉ (getNode S c.1).connections

theorem fold_connect (i : Nat) (s : NodeStage) :
    ∀ (cs : List (Nat × Delta)) (S : GraphState), PassPre S i cs →
      PassOut S i s cs (cs.foldl (fun acc c => connect acc c.1 i c.2 s) S) := by
  intro cs
  induction cs with
  | nil =>
    intro S _
    exact { len := rfl, data := fun _ => rfl, cur := rfl, pin := rfl,
            nxt := (by cases s <;> simp), conn_i := (by simp),
            conn_r := fun c hc => absurd hc (List.not_mem_nil c),
            conn_o := fun _ _ _ => rfl }
  | cons c cs ih =>
    intro S hpre
    obtain ⟨hi, hnd, hcs⟩ := hpre
    obtain ⟨hy, hyne, hyconn, hiconn⟩ := hcs c (List.mem_cons_self _ _)
    rw [List.map_cons, List.nodup_cons] at hnd
    obtain ⟨hcnot, hnd'⟩ := hnd
    rw [List.foldl_cons]
    have hpre1 : PassPre (connect S c.1 i c.2 s) i cs := by
      refine ⟨by rw [connect_len]; exact hi, hnd', ?_⟩
      intro c' hc'
      obtain ⟨hy', hyne', hyconn', hiconn'⟩ := hcs c' (List.mem_cons_of_mem _ hc')
      have hne_cc : c'.1 ≠ c.1 := by
        intro h
        exact hcnot (h ▸ List.mem_map_of_mem Prod.fst hc')
      refine ⟨by rw [connect_len]; exact hy', hyne', ?_, ?_⟩
      · rw [connect_conn_peer c.2 s hi hyne]
        intro hmem
        rcases List.mem_append.1 hmem with hmem | hmem
        · exact hyconn' hmem
        · exact hne_cc (List.mem_singleton.1 hmem)
      · rw [connect_conn_other c.2 s hne_cc hyne']
        exact hiconn'
    have out := ih (connect S c.1 i c.2 s) hpre1
    refine { len := ?_, data := ?_, cur := ?_, pin := ?_, nxt := ?_,
             conn_i := ?_, conn_r := ?_, conn_o := ?_ }
    · rw [out.len, connect_len]
    · intro k
      rw [out.data k, connect_data]
    · rw [out.cur, connect_cur]
    · rw [out.pin, connect_pin]
    · rw [out.nxt, connect_next]
      cases s <;> simp
    · rw [out.conn_i, connect_conn_peer c.2 s hi hyne]
      simp
    · intro c' hc'
      rcases List.mem_cons.1 hc' with rfl | hc'
      · have hnotin : c'.1 ∉ cs.map Prod.fst := hcnot
        rw [out.conn_o c'.1 hyne hnotin,
          connect_conn_self c'.2 s hy hyne]
      · have hne_cc : c'.1 ≠ c.1 := by
          intro h
          exact hcnot (h ▸ List.mem_map_of_mem Prod.fst hc')
        obtain ⟨_, hyne', _, _⟩ := hcs c' (List.mem_cons_of_mem _ hc')
        rw [out.conn_r c' hc', connect_conn_other c.2 s hne_cc hyne']
    · intro k hki hknot
      rw [List.map_cons] at hknot
      have hk1 : k ∉ cs.map Prod.fst := fun h => hknot (List.mem_cons_of_mem _ h)
      have hk2 : k ≠ c.1 := fun h => hknot (h ▸ List.mem_cons_self _ _)
      rw [out.conn_o k hki hk1, connect_conn_other c.2 s hk2 hki]

theorem connect_list_fst_eq (S : GraphState) (i : Nat) (L : List Nat)
    (s : NodeStage) (M : List (TowerSet × Delta)) :
    (connect_list S i L s M).1
      = ((get_matching_index (M.map Prod.fst)
            (L.map fun idx => (getNode S idx).data)).map
          (fun m => (L.getD m.2 0, (M.getD m.1 ([], (0, 0))).2))).foldl
          (fun acc c => connect acc c.1 i c.2 s) S := by
  unfold connect_list
  dsimp only
  rw [List.foldl_map]

theorem connect_list_snd_eq (S : GraphState) (i : Nat) (L : List Nat)
    (s : NodeStage) (M : List (TowerSet × Delta)) :
    (connect_list S i L s M).2
      = pop_list ((get_matching_index (M.map Prod.fst)
            (L.map fun idx => (getNode S idx).data)).map Prod.fst) M := rfl

theorem getD_eq_of_getElem? {l : List α} {n : Nat} {x : α} (d : α)
    (h : l[n]? = some x) : l.getD n d = x := by
  rw [List.getD_eq_getElem?_getD, h]
  rfl

theorem pass_spec (S : GraphState) (i : Nat) (L : List Nat) (s : NodeStage)
    (M : List (TowerSet × Delta))
    (hi : i < S.nodes.length)
    (hL : L.Nodup)
    (hLlt : ∀ k ∈ L, k < S.nodes.length)
    (hdist : ∀ p q : Nat, p < S.nodes.length → q < S.nodes.length → p ≠ q →
      (getNode S p).data ≠ (getNode S q).data)
    (hM : (M.map Prod.fst).Nodup)
    (hMi : ∀ m ∈ M, m.1 ≠ (getNode S i).data)
    (hMc : ∀ m ∈ M, ∀ y ∈ (getNode S i).connections, (getNode S y).data ≠ m.1)
    (hsym : ∀ a b : Nat, b ∈ (getNode S a).connections → a ∈ (getNode S b).connections) :
    ∃ cs : List (Nat × Delta),
      PassPre S i cs ∧
      PassOut S i s cs (connect_list S i L s M).1 ∧
      (∀ y ∈ cs.map Prod.fst, y ∈ L) ∧
      (∀ y ∈ cs.map Prod.fst, ∃ m ∈ M, (getNode S y).data = m.1) ∧
      (∀ m ∈ (connect_list S i L s M).2, ∀ z ∈ L, (getNode S z).data ≠ m.1) ∧
      (∀ m ∈ M, m ∉ (connect_list S i L s M).2 →
        ∃ y ∈ (getNode (connect_list S i L s M).1 i).connections,
          (getNode S y).data = m.1) ∧
      (∀ z ∈ L, ∀ m ∈ M, (getNode S z).data = m.1 → z ∈ cs.map Prod.fst) := by
  have htsl : (L.map fun k => (getNode S k).data).Nodup := by
    refine List.Nodup.map_on ?_ hL
    intro x hx y hy hxy
    by_contra hne
    exact hdist x y (hLlt x hx) (hLlt y hy) hne hxy
  have hidxs : ((get_matching_index (M.map Prod.fst)
      (L.map fun idx => (getNode S idx).data)).map Prod.fst).Nodup :=
    gmi_fst_nodup htsl
  have hmts : (get_matching_index (M.map Prod.fst)
      (L.map fun idx => (getNode S idx).data)).Nodup :=
    List.Nodup.of_map _ hidxs
  -- facts about an arbitrary match
  have hmatch : ∀ pq ∈ get_matching_index (M.map Prod.fst)
      (L.map fun idx => (getNode S idx).data),
      ∃ m z, M[pq.1]? = some m ∧ L[pq.2]? = some z ∧ (getNode S z).data = m.1 := by
    intro pq hpq
    rcases pq with ⟨p, q⟩
    rcases mem_get_matching_index.1 hpq with ⟨x, hp, hq⟩
    rw [List.getElem?_map] at hp hq
    rcases Option.map_eq_some'.1 hp with ⟨m, hm, hmx⟩
    rcases Option.map_eq_some'.1 hq with ⟨z, hz, hzx⟩
    exact ⟨m, z, hm, hz, by rw [hzx, ← hmx]⟩
  -- the receivers with their moves
  refine ⟨(get_matching_index (M.map Prod.fst)
      (L.map fun idx => (getNode S idx).data)).map
        (fun m => (L.getD m.2 0, (M.getD m.1 ([], (0, 0))).2)), ?_, ?_, ?_, ?_, ?_, ?_, ?_⟩
  case _ =>
    -- PassPre
    refine ⟨hi, ?_, ?_⟩
    · rw [List.map_map]
      refine List.Nodup.map_on ?_ hmts
      intro x hx y hy hxy
      dsimp only [Function.comp] at hxy
      rcases hmatch x hx with ⟨mx, zx, hmx, hzx, hdx⟩
      rcases hmatch y hy with ⟨my, zy, hmy, hzy, hdy⟩
      rw [getD_eq_of_getElem? 0 hzx, getD_eq_of_getElem? 0 hzy] at hxy
      have hq : x.2 = y.2 := by
        apply nodup_getElem?_inj hL hzx
        rw [hxy]
        exact hzy
      have hdata : mx.1 = my.1 := by
        rw [← hdx, ← hdy, hxy]
      have hp : x.1 = y.1 := by
        apply nodup_getElem?_inj hM (a := mx.1)
        · rw [List.getElem?_map, hmx]
          rfl
        · rw [List.getElem?_map, hmy, hdata]
          rfl
      exact Prod.ext hp hq
    · intro c hc
      rw [List.mem_map] at hc
      rcases hc with ⟨pq, hpq, rfl⟩
      rcases hmatch pq hpq with ⟨m, z, hm, hz, hd⟩
      have hmem_m : m ∈ M := List.mem_iff_getElem?.2 ⟨pq.1, hm⟩
      have hzL : z ∈ L := List.mem_iff_getElem?.2 ⟨pq.2, hz⟩
      have hzval := getD_eq_of_getElem? 0 hz
      dsimp only
      rw [hzval]
      have hzne : z ≠ i := by
        intro h
        exact hMi m hmem_m (by rw [← hd, h])
      have hznc : z ∉ (getNode S i).connections := by
        intro hmem
        exact hMc m hmem_m z hmem hd
      refine ⟨hLlt z hzL, hzne, hznc, ?_⟩
      intro hmem
      exact hznc (hsym z i hmem)
  case _ =>
    rw [connect_list_fst_eq]
    apply fold_connect
    -- PassPre again, by the same reasoning: reuse through a local have is not
    -- possible here, so reprove via the structure above
    refine ⟨hi, ?_, ?_⟩
    · rw [List.map_map]
      refine List.Nodup.map_on ?_ hmts
      intro x hx y hy hxy
      dsimp only [Function.comp] at hxy
      rcases hmatch x hx with ⟨mx, zx, hmx, hzx, hdx⟩
      rcases hmatch y hy with ⟨my, zy, hmy, hzy, hdy⟩
      rw [getD_eq_of_getElem? 0 hzx, getD_eq_of_getElem? 0 hzy] at hxy
      have hq : x.2 = y.2 := by
        apply nodup_getElem?_inj hL hzx
        rw [hxy]
        exact hzy
      have hdata : mx.1 = my.1 := by
        rw [← hdx, ← hdy, hxy]
      have hp : x.1 = y.1 := by
        apply nodup_getElem?_inj hM (a := mx.1)
        · rw [List.getElem?_map, hmx]
          rfl
        · rw [List.getElem?_map, hmy, hdata]
          rfl
      exact Prod.ext hp hq
    · intro c hc
      rw [List.mem_map] at hc
      rcases hc with ⟨pq, hpq, rfl⟩
      rcases hmatch pq hpq with ⟨m, z, hm, hz, hd⟩
      have hmem_m : m ∈ M := List.mem_iff_getElem?.2 ⟨pq.1, hm⟩
      have hzL : z ∈ L := List.mem_iff_getElem?.2 ⟨pq.2, hz⟩
      have hzval := getD_eq_of_getElem? 0 hz
      dsimp only
      rw [hzval]
      have hzne : z ≠ i := by
        intro h
        exact hMi m hmem_m (by rw [← hd, h])
      have hznc : z ∉ (getNode S i).connections := by
        intro hmem
        exact hMc m hmem_m z hmem hd
      refine ⟨hLlt z hzL, hzne, hznc, ?_⟩
      intro hmem
      exact hznc (hsym z i hmem)
  case _ =>
    intro y hy
    rw [List.map_map, List.mem_map] at hy
    rcases hy with ⟨pq, hpq, hval⟩
    rcases hmatch pq hpq with ⟨m, z, hm, hz, hd⟩
    dsimp only [Function.comp] at hval
    rw [getD_eq_of_getElem? 0 hz] at hval
    rw [← hval]
    exact List.mem_iff_getElem?.2 ⟨pq.2, hz⟩
  case _ =>
    intro y hy
    rw [List.map_map, List.mem_map] at hy
    rcases hy with ⟨pq, hpq, hval⟩
    rcases hmatch pq hpq with ⟨m, z, hm, hz, hd⟩
    dsimp only [Function.comp] at hval
    rw [getD_eq_of_getElem? 0 hz] at hval
    exact ⟨m, List.mem_iff_getElem?.2 ⟨pq.1, hm⟩, by rw [← hval]; exact hd⟩
  case _ =>
    intro m hm z hz hdz
    rw [connect_list_snd_eq] at hm
    rcases (mem_pop_list_iff hidxs m).1 hm with ⟨p, hp, hpn⟩
    rcases List.mem_iff_getElem?.1 hz with ⟨q, hq⟩
    have hpq : (p, q) ∈ get_matching_index (M.map Prod.fst)
        (L.map fun idx => (getNode S idx).data) := by
      apply mem_get_matching_index.2
      refine ⟨m.1, ?_, ?_⟩
      · rw [List.getElem?_map, hp]
        rfl
      · rw [List.getElem?_map, hq, Option.map_some', hdz]
    exact hpn (List.mem_map_of_mem Prod.fst hpq)
  case _ =>
    intro m hmM hmnot
    rcases List.mem_iff_getElem?.1 hmM with ⟨p, hp⟩
    by_cases hpidx : p ∈ (get_matching_index (M.map Prod.fst)
        (L.map fun idx => (getNode S idx).data)).map Prod.fst
    · rw [List.mem_map] at hpidx
      rcases hpidx with ⟨pq, hpq, hpfst⟩
      rcases hmatch pq hpq with ⟨m', z, hm', hz, hd⟩
      have hmm : m' = m := by
        rw [hpfst] at hm'
        rw [hp] at hm'
        exact Option.some_inj.1 hm'.symm
      subst hmm
      refine ⟨L.getD pq.2 0, ?_, ?_⟩
      · -- the receiver is in the connections of i afterwards
        rw [connect_list_fst_eq]
        have out := fold_connect i s ((get_matching_index (M.map Prod.fst)
            (L.map fun idx => (getNode S idx).data)).map
            (fun m => (L.getD m.2 0, (M.getD m.1 ([], (0, 0))).2))) S ?_
        · rw [out.conn_i]
          apply List.mem_append_right
          rw [List.map_map]
          apply List.mem_map_of_mem _ hpq
        · -- PassPre, third time
          refine ⟨hi, ?_, ?_⟩
          · rw [List.map_map]
            refine List.Nodup.map_on ?_ hmts
            intro x hx y hy hxy
            dsimp only [Function.comp] at hxy
            rcases hmatch x hx with ⟨mx, zx, hmx, hzx, hdx⟩
            rcases hmatch y hy with ⟨my, zy, hmy, hzy, hdy⟩
            rw [getD_eq_of_getElem? 0 hzx, getD_eq_of_getElem? 0 hzy] at hxy
            have hq : x.2 = y.2 := by
              apply nodup_getElem?_inj hL hzx
              rw [hxy]
              exact hzy
            have hdata : mx.1 = my.1 := by
              rw [← hdx, ← hdy, hxy]
            have hp' : x.1 = y.1 := by
              apply nodup_getElem?_inj hM (a := mx.1)
              · rw [List.getElem?_map, hmx]
                rfl
              · rw [List.getElem?_map, hmy, hdata]
                rfl
            exact Prod.ext hp' hq
          · intro c hc
            rw [List.mem_map] at hc
            rcases hc with ⟨pq', hpq', rfl⟩
            rcases hmatch pq' hpq' with ⟨m'', z', hm'', hz', hd'⟩
            have hmem_m : m'' ∈ M := List.mem_iff_getElem?.2 ⟨pq'.1, hm''⟩
            have hzL : z' ∈ L := List.mem_iff_getElem?.2 ⟨pq'.2, hz'⟩
            have hzval := getD_eq_of_getElem? 0 hz'
            dsimp only
            rw [hzval]
            have hzne : z' ≠ i := by
              intro h
              exact hMi m'' hmem_m (by rw [← hd', h])
            have hznc : z' ∉ (getNode S i).connections := by
              intro hmem
              exact hMc m'' hmem_m z' hmem hd'
            refine ⟨hLlt z' hzL, hzne, hznc, ?_⟩
            intro hmem
            exact hznc (hsym z' i hmem)
      · rw [getD_eq_of_getElem? 0 hz]
        exact hd
    · exfalso
      apply hmnot
      rw [connect_list_snd_eq]
      exact (mem_pop_list_iff hidxs m).2 ⟨p, hp, hpidx⟩
  case _ =>
    intro z hz m hmM hdz
    rcases List.mem_iff_getElem?.1 hz with ⟨q, hq⟩
    rcases List.mem_iff_getElem?.1 hmM with ⟨p, hp⟩
    have hpq : (p, q) ∈ get_matching_index (M.map Prod.fst)
        (L.map fun idx => (getNode S idx).data) := by
      apply mem_get_matching_index.2
      refine ⟨m.1, ?_, ?_⟩
      · rw [List.getElem?_map, hp]
        rfl
      · rw [List.getElem?_map, hq, Option.map_some', hdz]
    rw [List.map_map]
    rw [List.mem_map]
    refine ⟨(p, q), hpq, ?_⟩
    dsimp only [Function.comp]
    exact getD_eq_of_getElem? 0 hq

/-! ### Consequences of a matching pass (claim C4) -/

theorem pass_conn_extend {S S' : GraphState} {i : Nat} {s : NodeStage}
    {cs : List (Nat × Delta)} (out : PassOut S i s cs S') :
    ∀ k, ∃ e, (getNode S' k).connections = (getNode S k).connections ++ e := by
  intro k
  by_cases hki : k = i
  · subst hki
    exact ⟨cs.map Prod.fst, out.conn_i⟩
  · by_cases hkr : k ∈ cs.map Prod.fst
    · rw [List.mem_map] at hkr
      rcases hkr with ⟨c, hc, rfl⟩
      exact ⟨[i], out.conn_r c hc⟩
    · exact ⟨[], by rw [out.conn_o k hki hkr, List.append_nil]⟩

theorem pass_conn_lt {S S' : GraphState} {i : Nat} {s : NodeStage}
    {cs : List (Nat × Delta)} (out : PassOut S i s cs S') (pre : PassPre S i cs)
    (hclt : ∀ a : Nat, ∀ k ∈ (getNode S a).connections, k < S.nodes.length) :
    ∀ a : Nat, ∀ k ∈ (getNode S' a).connections, k < S'.nodes.length := by
  obtain ⟨hi, hnd, hcs⟩ := pre
  intro a k hk
  rw [out.len]
  by_cases hai : a = i
  · subst hai
    rw [out.conn_i] at hk
    rcases List.mem_append.1 hk with hk | hk
    · exact hclt a k hk
    · rw [List.mem_map] at hk
      rcases hk with ⟨c, hc, rfl⟩
      exact (hcs c hc).1
  · by_cases har : a ∈ cs.map Prod.fst
    · rw [List.mem_map] at har
      rcases har with ⟨c, hc, rfl⟩
      rw [out.conn_r c hc] at hk
      rcases List.mem_append.1 hk with hk | hk
      · exact hclt c.1 k hk
      · rw [List.mem_singleton.1 hk]
        exact hi
    · rw [out.conn_o a hai har] at hk
      exact hclt a k hk

theorem pass_sym {S S' : GraphState} {i : Nat} {s : NodeStage}
    {cs : List (Nat × Delta)} (out : PassOut S i s cs S') (pre : PassPre S i cs)
    (hsym : ∀ a b : Nat, b ∈ (getNode S a).connections → a ∈ (getNode S b).connections) :
    ∀ a b : Nat, b ∈ (getNode S' a).connections → a ∈ (getNode S' b).connections := by
  obtain ⟨hi, hnd, hcs⟩ := pre
  have hmono : ∀ a b : Nat, b ∈ (getNode S a).connections →
      b ∈ (getNode S' a).connections := by
    intro a b hb
    rcases pass_conn_extend out a with ⟨e, he⟩
    rw [he]
    exact List.mem_append_left _ hb
  intro a b hb
  by_cases hai : a = i
  · subst hai
    rw [out.conn_i] at hb
    rcases List.mem_append.1 hb with hb | hb
    · exact hmono b a (hsym a b hb)
    · rw [List.mem_map] at hb
      rcases hb with ⟨c, hc, rfl⟩
      rw [out.conn_r c hc]
      exact List.mem_append_right _ (List.mem_singleton.2 rfl)
  · by_cases har : a ∈ cs.map Prod.fst
    · rw [List.mem_map] at har
      rcases har with ⟨c, hc, rfl⟩
      rw [out.conn_r c hc] at hb
      rcases List.mem_append.1 hb with hb | hb
      · exact hmono b c.1 (hsym c.1 b hb)
      · rw [List.mem_singleton.1 hb, out.conn_i]
        exact List.mem_append_right _ (List.mem_map_of_mem Prod.fst hc)
    · rw [out.conn_o a hai har] at hb
      exact hmono b a (hsym a b hb)

theorem pass_conn_nodup {S S' : GraphState} {i : Nat} {s : NodeStage}
    {cs : List (Nat × Delta)} (out : PassOut S i s cs S') (pre : PassPre S i cs)
    (hnd : ∀ a : Nat, (getNode S a).connections.Nodup) :
    ∀ a : Nat, (getNode S' a).connections.Nodup := by
  obtain ⟨hi, hcnd, hcs⟩ := pre
  intro a
  by_cases hai : a = i
  · subst hai
    rw [out.conn_i]
    refine (hnd a).append hcnd ?_
    intro k hk hk'
    rw [List.mem_map] at hk'
    rcases hk' with ⟨c, hc, rfl⟩
    exact (hcs c hc).2.2.1 hk
  · by_cases har : a ∈ cs.map Prod.fst
    · rw [List.mem_map] at har
      rcases har with ⟨c, hc, rfl⟩
      rw [out.conn_r c hc]
      refine (hnd c.1).append (List.nodup_singleton i) ?_
      intro k hk hk'
      rw [List.mem_singleton.1 hk'] at hk
      exact (hcs c hc).2.2.2 hk
    · rw [out.conn_o a hai har]
      exact hnd a

/-! ### Arena extension (claim C4) -/

theorem getNode_append_lt {S : GraphState} {new : List NodeData} {k : Nat}
    (hk : k < S.nodes.length) :
    getNode { S with nodes := S.nodes ++ new } k = getNode S k := by
  unfold getNode
  simp only
  rw [List.getD_eq_getElem?_getD, List.getD_eq_getElem?_getD,
    List.getElem?_append_left hk]

theorem getNode_append_fresh {S : GraphState} {new : List NodeData} {k : Nat}
    (hk : k < new.length) :
    getNode { S with nodes := S.nodes ++ new } (S.nodes.length + k)
      = new.getD k ⟨[], [], []⟩ := by
  unfold getNode
  simp only
  rw [List.getD_eq_getElem?_getD, List.getD_eq_getElem?_getD,
    List.getElem?_append_right (Nat.le_add_right _ _)]
  rw [show S.nodes.length + k - S.nodes.length = k from by omega]

theorem length_applyPatch (ts : TowerSet) (d : Delta) :
    (applyPatch ts d).length = ts.length := by
  unfold applyPatch
  simp [List.length_set]

/-- Introduction form for membership in `genMods`. -/
theorem mem_genMods_intro {ts : TowerSet} {d : Delta}
    (hd : d ∈ perms2 ts.length) (hv : check_validity ts = true)
    (hleg : is_patch_valid ts d = true) :
    (applyPatch ts d, d) ∈ genMods ts := by
  unfold genMods
  apply List.mem_filterMap.2
  refine ⟨d, hd, ?_⟩
  rw [if_pos (by rw [hv, hleg]; rfl)]

theorem filter_out_no_match {mods : List (TowerSet × Delta)} {tsl : List TowerSet}
    (hnd : tsl.Nodup) :
    ∀ m ∈ filter_out mods tsl, ∀ t ∈ tsl, t ≠ m.1 := by
  intro m hm t ht heq
  unfold filter_out at hm
  have hidxs := @gmi_fst_nodup (mods.map Prod.fst) _ hnd
  rcases (mem_pop_list_iff hidxs m).1 hm with ⟨p, hp, hpn⟩
  rcases List.mem_iff_getElem?.1 ht with ⟨q, hq⟩
  have hpq : (p, q) ∈ get_matching_index (mods.map Prod.fst) tsl := by
    apply mem_get_matching_index.2
    refine ⟨m.1, ?_, ?_⟩
    · rw [List.getElem?_map, hp]
      rfl
    · rw [hq, heq]
  exact hpn (List.mem_map_of_mem Prod.fst hpq)

theorem filter_out_matched {mods : List (TowerSet × Delta)} {tsl : List TowerSet}
    (hnd : tsl.Nodup) (hmnd : mods.Nodup) :
    ∀ m ∈ mods, m ∉ filter_out mods tsl → ∃ t ∈ tsl, t = m.1 := by
  intro m hm hnot
  unfold filter_out at hnot
  have hidxs := @gmi_fst_nodup (mods.map Prod.fst) _ hnd
  rcases List.mem_iff_getElem?.1 hm with ⟨p, hp⟩
  by_cases hpidx : p ∈ (get_matching_index (mods.map Prod.fst) tsl).map Prod.fst
  · rw [List.mem_map] at hpidx
    rcases hpidx with ⟨pq, hpq, hpfst⟩
    rcases pq with ⟨p1, q⟩
    dsimp only at hpfst
    subst hpfst
    rcases mem_get_matching_index.1 hpq with ⟨x, hx1, hx2⟩
    rw [List.getElem?_map, hp] at hx1
    have hxm : x = m.1 := (Option.some_inj.1 hx1).symm
    exact ⟨x, List.mem_iff_getElem?.2 ⟨q, hx2⟩, hxm⟩
  · exact absurd ((mem_pop_list_iff hidxs m).2 ⟨p, hp, hpidx⟩) hnot

/-- Expansion at a node is preserved by any step that keeps its data, only
extends connections, and keeps the data of every old node. -/
def expandedAt (S : GraphState) (w : Nat) : Prop :=
  ∀ m ∈ genMods (getNode S w).data,
    ∃ y ∈ (getNode S w).connections, (getNode S y).data = m.1

theorem expanded_mono {S S' : GraphState} {w : Nat}
    (hw : w < S.nodes.length)
    (hdata : ∀ k, k < S.nodes.length → (getNode S' k).data = (getNode S k).data)
    (hconn : ∀ k : Nat, ∃ e, (getNode S' k).connections = (getNode S k).connections ++ e)
    (hclt : ∀ a : Nat, ∀ k ∈ (getNode S a).connections, k < S.nodes.length)
    (h : expandedAt S w) : expandedAt S' w := by
  intro m hm
  rw [hdata w hw] at hm
  rcases h m hm with ⟨y, hy, hyd⟩
  rcases hconn w with ⟨e, he⟩
  refine ⟨y, by rw [he]; exact List.mem_append_left _ hy, ?_⟩
  rw [hdata y (hclt w y hy), hyd]

/-! ### The global search invariant (claim C4) -/

theorem genMods_strict :
    ∀ (ts : TowerSet) (m : TowerSet × Delta),
      strictTowers ts → m ∈ genMods ts → strictTowers m.1 := by
  intro ts m hstr hm
  rcases mem_genMods hm with ⟨hperm, _, hleg, hts⟩
  rcases m with ⟨mts, a, b⟩
  rcases mem_perms2.1 hperm with ⟨h1, h2, h12⟩
  dsimp only at hleg hts h1 h2 h12 ⊢
  subst hts
  exact applyPatch_strict hstr h2 h12 hleg

/-- The invariant maintained by every round of the search: node
configurations are pairwise distinct and strictly descending, the frontier
lists and adjacency lists are well-formed, adjacency is symmetric and
duplicate-free, and every node no longer on a frontier has all its legal
successor configurations realized among its neighbours. -/
structure SInv (st : GraphState) : Prop where
  distinct : ∀ p q : Nat, p < st.nodes.length → q < st.nodes.length → p ≠ q →
    (getNode st p).data ≠ (getNode st q).data
  strict : ∀ nd ∈ st.nodes, strictTowers nd.data
  cur_lt : ∀ k ∈ st.current_nodes, k < st.nodes.length
  next_lt : ∀ k ∈ st.next_nodes, k < st.nodes.length
  conn_lt : ∀ a : Nat, ∀ k ∈ (getNode st a).connections, k < st.nodes.length
  conn_sym : ∀ a b : Nat, b ∈ (getNode st a).connections → a ∈ (getNode st b).connections
  conn_nodup : ∀ a : Nat, (getNode st a).connections.Nodup
  cur_nodup : st.current_nodes.Nodup
  next_nodup : st.next_nodes.Nodup
  retired_exp : ∀ w, w < st.nodes.length → w ∉ st.current_nodes →
    w ∉ st.next_nodes → expandedAt st w

set_option maxHeartbeats 2000000 in
theorem propagate_SInv (st : GraphState) (i : Nat) (hi : i < st.nodes.length)
    (h : SInv st) :
    SInv (propagate st i) ∧
    (propagate st i).current_nodes = st.current_nodes ∧
    (∃ ext, (propagate st i).next_nodes = st.next_nodes ++ ext) ∧
    st.nodes.length ≤ (propagate st i).nodes.length ∧
    (∀ k, k < st.nodes.length →
      (getNode (propagate st i) k).data = (getNode st k).data) ∧
    (∀ k : Nat, ∃ e,
      (getNode (propagate st i) k).connections = (getNode st k).connections ++ e) ∧
    expandedAt (propagate st i) i := by
  have hdata_i_strict : strictTowers (getNode st i).data :=
    h.strict _ (getD_mem _ hi)
  unfold propagate
  dsimp only
  set cdatas := (getNode st i).connections.map (fun k => (getNode st k).data)
    with hcdatas
  set mods1 := filter_out (genMods (getNode st i).data) cdatas with hmods1def
  have hcd_nodup : cdatas.Nodup := by
    rw [hcdatas]
    refine List.Nodup.map_on ?_ (h.conn_nodup i)
    intro x hx y hy hxy
    by_contra hne
    exact h.distinct x y (h.conn_lt i x hx) (h.conn_lt i y hy) hne hxy
  have h0nodup : ((genMods (getNode st i).data).map Prod.fst).Nodup :=
    genMods_fst_nodup _
  have h1sub : List.Sublist mods1 (genMods (getNode st i).data) :=
    filter_out_sublist _ _
  have h1nodup : (mods1.map Prod.fst).Nodup :=
    List.Nodup.sublist (h1sub.map Prod.fst) h0nodup
  have hmem_mods1 : ∀ m ∈ mods1, m ∈ genMods (getNode st i).data :=
    fun m hm => h1sub.subset hm
  have hMi1 : ∀ m ∈ mods1, m.1 ≠ (getNode st i).data := by
    intro m hm
    rcases mem_genMods (hmem_mods1 m hm) with ⟨hperm, _, hleg, hts⟩
    rcases m with ⟨mts, a, b⟩
    rcases mem_perms2.1 hperm with ⟨h1, h2, h12⟩
    dsimp only at hleg hts h1 h2 h12 ⊢
    rw [hts]
    exact applyPatch_ne_self h12 hleg
  have hMc1 : ∀ m ∈ mods1, ∀ y ∈ (getNode st i).connections,
      (getNode st y).data ≠ m.1 := by
    intro m hm y hy heq
    exact filter_out_no_match hcd_nodup m hm _
      (by rw [hcdatas]; exact List.mem_map_of_mem _ hy) heq
  obtain ⟨cs1, pre1, out1, recvL1, recvD1, rem1, gone1, match1⟩ :=
    pass_spec st i st.current_nodes NodeStage.CURRENT mods1 hi h.cur_nodup
      h.cur_lt h.distinct h1nodup hMi1 hMc1 h.conn_sym
  set S1 := (connect_list st i st.current_nodes NodeStage.CURRENT mods1).1
    with hS1def
  set M2 := (connect_list st i st.current_nodes NodeStage.CURRENT mods1).2
    with hM2def
  have hnext1 : S1.next_nodes = st.next_nodes := by
    rw [out1.nxt]
    simp
  have hM2sub : ∀ m ∈ M2, m ∈ mods1 :=
    fun m hm => (connect_list_snd_sublist st i st.current_nodes
      NodeStage.CURRENT mods1).subset hm
  have hM2nodup : (M2.map Prod.fst).Nodup :=
    List.Nodup.sublist ((connect_list_snd_sublist st i st.current_nodes
      NodeStage.CURRENT mods1).map Prod.fst) h1nodup
  have hi2 : i < S1.nodes.length := by
    rw [out1.len]
    exact hi
  have hL2nodup : S1.next_nodes.Nodup := by
    rw [hnext1]
    exact h.next_nodup
  have hLlt2 : ∀ k ∈ S1.next_nodes, k < S1.nodes.length := by
    rw [hnext1, out1.len]
    exact h.next_lt
  have hdist2 : ∀ p q : Nat, p < S1.nodes.length → q < S1.nodes.length →
      p ≠ q → (getNode S1 p).data ≠ (getNode S1 q).data := by
    intro p q hp hq hne
    rw [out1.data p, out1.data q]
    rw [out1.len] at hp hq
    exact h.distinct p q hp hq hne
  have hMi2 : ∀ m ∈ M2, m.1 ≠ (getNode S1 i).data := by
    intro m hm
    rw [out1.data i]
    exact hMi1 m (hM2sub m hm)
  have hMc2 : ∀ m ∈ M2, ∀ y ∈ (getNode S1 i).connections,
      (getNode S1 y).data ≠ m.1 := by
    intro m hm y hy
    rw [out1.conn_i] at hy
    rw [out1.data y]
    rcases List.mem_append.1 hy with hy | hy
    · exact hMc1 m (hM2sub m hm) y hy
    · exact rem1 m hm y (recvL1 y hy)
  have hsym2 : ∀ a b : Nat, b ∈ (getNode S1 a).connections →
      a ∈ (getNode S1 b).connections :=
    pass_sym out1 pre1 h.conn_sym
  obtain ⟨cs2, pre2, out2, recvL2, recvD2, rem2, gone2, match2⟩ :=
    pass_spec S1 i S1.next_nodes NodeStage.NEXT M2 hi2 hL2nodup
      hLlt2 hdist2 hM2nodup hMi2 hMc2 hsym2
  set S2 := (connect_list S1 i S1.next_nodes NodeStage.NEXT M2).1 with hS2def
  set M3 := (connect_list S1 i S1.next_nodes NodeStage.NEXT M2).2 with hM3def
  have hM3sub : ∀ m ∈ M3, m ∈ M2 :=
    fun m hm => (connect_list_snd_sublist S1 i S1.next_nodes
      NodeStage.NEXT M2).subset hm
  have hM3nodup : (M3.map Prod.fst).Nodup :=
    List.Nodup.sublist ((connect_list_snd_sublist S1 i S1.next_nodes
      NodeStage.NEXT M2).map Prod.fst) hM2nodup
  have hlen2 : S2.nodes.length = st.nodes.length := by
    rw [out2.len, out1.len]
  have hdata2 : ∀ k, (getNode S2 k).data = (getNode st k).data := by
    intro k
    rw [out2.data k, out1.data k]
  have hnext2 : S2.next_nodes = st.next_nodes := by
    rw [out2.nxt]
    simp [hnext1]
  have hcur2 : S2.current_nodes = st.current_nodes := by
    rw [out2.cur, out1.cur]
  have hconnlt2 : ∀ a : Nat, ∀ k ∈ (getNode S2 a).connections,
      k < S2.nodes.length :=
    pass_conn_lt out2 pre2 (pass_conn_lt out1 pre1 h.conn_lt)
  have hsym2' : ∀ a b : Nat, b ∈ (getNode S2 a).connections →
      a ∈ (getNode S2 b).connections :=
    pass_sym out2 pre2 hsym2
  have hnodup2 : ∀ a : Nat, (getNode S2 a).connections.Nodup :=
    pass_conn_nodup out2 pre2 (pass_conn_nodup out1 pre1 h.conn_nodup)
  -- connections of i after the two reconciliation passes
  have hconn2_i : (getNode S2 i).connections
      = ((getNode st i).connections ++ cs1.map Prod.fst) ++ cs2.map Prod.fst := by
    rw [out2.conn_i, out1.conn_i]
  -- the key fact: surviving mods match no live node at all
  have hnew_not_old : ∀ m ∈ M3, ∀ p, p < st.nodes.length →
      (getNode st p).data ≠ m.1 := by
    intro m hm p hp heq
    by_cases hpc : p ∈ st.current_nodes
    · exact rem1 m (hM3sub m hm) p hpc heq
    · by_cases hpn : p ∈ st.next_nodes
      · refine rem2 m hm p ?_ ?_
        · rw [hnext1]
          exact hpn
        · rw [out1.data p]
          exact heq
      · have hret := h.retired_exp p hp hpc hpn
        have hm1 : m ∈ mods1 := hM2sub m (hM3sub m hm)
        rcases mem_genMods (hmem_mods1 m hm1) with ⟨hperm, _, hlegm, hts⟩
        rcases m with ⟨mts, a, b⟩
        rcases mem_perms2.1 hperm with ⟨ha, hb, hab⟩
        dsimp only at hlegm hts ha hb hab heq
        have hrt := applyPatch_roundtrip_core hdata_i_strict ha hb hab hlegm
        have hlenp : (getNode st p).data.length = (getNode st i).data.length := by
          rw [heq, hts, length_applyPatch]
        have hbp : (b, a) ∈ perms2 (getNode st p).data.length :=
          mem_perms2.2 ⟨by rw [hlenp]; exact hb, by rw [hlenp]; exact ha,
            Ne.symm hab⟩
        have hvalp : check_validity (getNode st p).data = true :=
          strict_check_validity (h.strict _ (getD_mem _ hp))
        have hlegp : is_patch_valid (getNode st p).data (b, a) = true := by
          rw [heq, hts]
          exact hrt.1
        have happ : applyPatch (getNode st p).data (b, a) = (getNode st i).data := by
          rw [heq, hts]
          exact hrt.2
        have hmp : (applyPatch (getNode st p).data (b, a), (b, a))
            ∈ genMods (getNode st p).data :=
          mem_genMods_intro hbp hvalp hlegp
        rcases hret _ hmp with ⟨y, hyconn, hydata⟩
        dsimp only at hydata
        rw [happ] at hydata
        have hylt : y < st.nodes.length := h.conn_lt p y hyconn
        have hyi : y = i := by
          by_contra hne
          exact h.distinct y i hylt hi hne hydata
        have hpconn : p ∈ (getNode st i).connections :=
          h.conn_sym p i (hyi ▸ hyconn)
        exact hMc1 _ hm1 p hpconn heq
  set ST3 : GraphState :=
    { S2 with nodes := S2.nodes ++ M3.map (fun m => ⟨m.1, [], []⟩) } with hST3def
  set L3 := (List.range M3.length).map (fun k => S2.nodes.length + k) with hL3def
  have hstrict1 : NodesP strictTowers S1 := by
    rw [hS1def]
    exact nodesP_connect_list _ _ _ _ h.strict
  have hstrict2 : NodesP strictTowers S2 := by
    rw [hS2def]
    exact nodesP_connect_list _ _ _ _ hstrict1
  have hstrict3 : NodesP strictTowers ST3 := by
    rw [hST3def]
    refine nodesP_arena_append _ hstrict2 ?_
    intro m hm
    exact genMods_strict _ _ hdata_i_strict (hmem_mods1 m (hM2sub m (hM3sub m hm)))
  clear_value cdatas mods1 S1 M2 S2 M3 ST3 L3
  have hlen3 : ST3.nodes.length = st.nodes.length + M3.length := by
    rw [hST3def]
    simp [List.length_append, hlen2]
  have hlen3' : S2.nodes.length ≤ ST3.nodes.length := by
    rw [hlen3, hlen2]
    omega
  have hold3 : ∀ k, k < st.nodes.length → getNode ST3 k = getNode S2 k := by
    intro k hk
    rw [hST3def]
    exact getNode_append_lt (by rw [hlen2]; exact hk)
  have hfresh3 : ∀ k, k < M3.length →
      getNode ST3 (st.nodes.length + k) = ⟨(M3.getD k ([], (0, 0))).1, [], []⟩ := by
    intro k hk
    rw [hST3def]
    have hbase : st.nodes.length = S2.nodes.length := hlen2.symm
    rw [hbase]
    rw [getNode_append_fresh (by rw [List.length_map]; exact hk)]
    rw [List.getD_eq_getElem?_getD, List.getElem?_map]
    rw [List.getD_eq_getElem?_getD]
    rcases hsome : M3[k]? with _ | m
    · rw [List.getElem?_eq_none_iff] at hsome
      omega
    · rfl
  have hdist3 : ∀ p q : Nat, p < ST3.nodes.length → q < ST3.nodes.length →
      p ≠ q → (getNode ST3 p).data ≠ (getNode ST3 q).data := by
    have hone : ∀ p k, p < st.nodes.length → k < M3.length →
        (getNode ST3 p).data ≠ (getNode ST3 (st.nodes.length + k)).data := by
      intro p k hp hk
      rw [hold3 p hp, hfresh3 k hk, hdata2 p]
      have hmem : M3.getD k ([], (0, 0)) ∈ M3 := getD_mem _ hk
      exact hnew_not_old _ hmem p hp
    intro p q hp hq hne
    rw [hlen3] at hp hq
    by_cases hps : p < st.nodes.length
    · by_cases hqs : q < st.nodes.length
      · rw [hold3 p hps, hold3 q hqs, hdata2 p, hdata2 q]
        exact h.distinct p q hps hqs hne
      · have hq' : q = st.nodes.length + (q - st.nodes.length) := by omega
        rw [hq']
        exact hone p (q - st.nodes.length) hps (by omega)
    · by_cases hqs : q < st.nodes.length
      · have hp' : p = st.nodes.length + (p - st.nodes.length) := by omega
        rw [hp']
        exact (hone q (p - st.nodes.length) hqs (by omega)).symm
      · have hp' : p = st.nodes.length + (p - st.nodes.length) := by omega
        have hq' : q = st.nodes.length + (q - st.nodes.length) := by omega
        rw [hp', hq', hfresh3 _ (by omega), hfresh3 _ (by omega)]
        dsimp only
        intro hdd
        apply hne
        rw [hp', hq']
        have hpe : M3[p - st.nodes.length]?
            = some (M3.getD (p - st.nodes.length) ([], (0, 0))) := by
          rw [List.getD_eq_getElem?_getD]
          rcases hsome : M3[p - st.nodes.length]? with _ | m
          · rw [List.getElem?_eq_none_iff] at hsome
            omega
          · rfl
        have hqe : M3[q - st.nodes.length]?
            = some (M3.getD (q - st.nodes.length) ([], (0, 0))) := by
          rw [List.getD_eq_getElem?_getD]
          rcases hsome : M3[q - st.nodes.length]? with _ | m
          · rw [List.getElem?_eq_none_iff] at hsome
            omega
          · rfl
        have h1 : (M3.map Prod.fst)[p - st.nodes.length]?
            = some (M3.getD (p - st.nodes.length) ([], (0, 0))).1 := by
          rw [List.getElem?_map, hpe]
          rfl
        have h2 : (M3.map Prod.fst)[q - st.nodes.length]?
            = some (M3.getD (p - st.nodes.length) ([], (0, 0))).1 := by
          rw [List.getElem?_map, hqe, hdd]
          rfl
        have heqk := nodup_getElem?_inj hM3nodup h1 h2
        omega
  have hfresh_conn : ∀ a, S2.nodes.length ≤ a →
      (getNode ST3 a).connections = [] := by
    intro a ha
    by_cases halt : a < ST3.nodes.length
    · have ha' : a = st.nodes.length + (a - st.nodes.length) := by
        rw [hlen2] at ha
        omega
      rw [ha', hfresh3 _ (by rw [hlen3] at halt; omega)]
    · rw [getNode_out_of_range (Nat.le_of_not_lt halt)]
  have hcur3 : ST3.current_nodes = S2.current_nodes := by rw [hST3def]
  have hnext3 : ST3.next_nodes = S2.next_nodes := by rw [hST3def]
  have hdata3 : ∀ k, k < st.nodes.length →
      (getNode ST3 k).data = (getNode st k).data := by
    intro k hk
    rw [hold3 k hk, hdata2 k]
  have hconnlt3 : ∀ a : Nat, ∀ k ∈ (getNode ST3 a).connections,
      k < ST3.nodes.length := by
    intro a k hk
    by_cases ha : a < st.nodes.length
    · rw [hold3 a ha] at hk
      have hlt := hconnlt2 a k hk
      rw [hlen2] at hlt
      rw [hlen3]
      omega
    · rw [hfresh_conn a (by rw [hlen2]; omega)] at hk
      exact absurd hk (List.not_mem_nil k)
  have hnodup3 : ∀ a : Nat, (getNode ST3 a).connections.Nodup := by
    intro a
    by_cases ha : a < st.nodes.length
    · rw [hold3 a ha]
      exact hnodup2 a
    · rw [hfresh_conn a (by rw [hlen2]; omega)]
      exact List.nodup_nil
  have hconnext3 : ∀ k : Nat, ∃ e,
      (getNode ST3 k).connections = (getNode st k).connections ++ e := by
    intro k
    by_cases hk : k < st.nodes.length
    · rw [hold3 k hk]
      rcases pass_conn_extend out2 k with ⟨e2, he2⟩
      rcases pass_conn_extend out1 k with ⟨e1, he1⟩
      exact ⟨e1 ++ e2, by rw [he2, he1, List.append_assoc]⟩
    · refine ⟨(getNode ST3 k).connections, ?_⟩
      rw [getNode_out_of_range (show st.nodes.length ≤ k by omega)]
      rw [show (NodeData.mk [] [] []).connections = [] from rfl, List.nil_append]
  have hi3 : i < ST3.nodes.length := by
    rw [hlen3]
    omega
  have hL3nodup : L3.Nodup := by
    rw [hL3def]
    exact List.Nodup.map (add_right_injective _) (List.nodup_range _)
  have hLlt3 : ∀ k ∈ L3, k < ST3.nodes.length := by
    rw [hL3def]
    intro k hk
    rcases List.mem_map.1 hk with ⟨j, hj, rfl⟩
    have hjlt := List.mem_range.1 hj
    rw [hlen3, hlen2]
    omega
  have hMi3 : ∀ m ∈ M3, m.1 ≠ (getNode ST3 i).data := by
    intro m hm
    rw [hold3 i hi, hdata2 i]
    exact hMi1 m (hM2sub m (hM3sub m hm))
  have hMc3 : ∀ m ∈ M3, ∀ y ∈ (getNode ST3 i).connections,
      (getNode ST3 y).data ≠ m.1 := by
    intro m hm y hy
    rw [hold3 i hi] at hy
    have hylt : y < st.nodes.length := by
      have hlt := hconnlt2 i y hy
      rw [hlen2] at hlt
      exact hlt
    rw [hold3 y hylt, hdata2 y]
    rw [hconn2_i] at hy
    rcases List.mem_append.1 hy with hy' | hy'
    · rcases List.mem_append.1 hy' with hy0 | hy1
      · exact hMc1 m (hM2sub m (hM3sub m hm)) y hy0
      · exact rem1 m (hM3sub m hm) y (recvL1 y hy1)
    · have hres := rem2 m hm y (recvL2 y hy')
      rw [out1.data y] at hres
      exact hres
  have hsym3 : ∀ a b : Nat, b ∈ (getNode ST3 a).connections →
      a ∈ (getNode ST3 b).connections := by
    intro a b hb
    by_cases ha : a < st.nodes.length
    · rw [hold3 a ha] at hb
      have hblt : b < st.nodes.length := by
        have hlt := hconnlt2 a b hb
        rw [hlen2] at hlt
        exact hlt
      rw [hold3 b hblt]
      exact hsym2' a b hb
    · rw [hfresh_conn a (by rw [hlen2]; omega)] at hb
      exact absurd hb (List.not_mem_nil b)
  obtain ⟨cs3, pre3, out3, recvL3, recvD3, rem3, gone3, match3⟩ :=
    pass_spec ST3 i L3 NodeStage.PROTOTYPE M3 hi3 hL3nodup hLlt3 hdist3
      hM3nodup hMi3 hMc3 hsym3
  refine ⟨⟨?_, ?_, ?_, ?_, ?_, ?_, ?_, ?_, ?_, ?_⟩, ?_, ?_, ?_, ?_, ?_, ?_⟩
  · -- distinct
    intro p q hp hq hne
    rw [out3.data p, out3.data q]
    rw [out3.len] at hp hq
    exact hdist3 p q hp hq hne
  · -- strict
    exact nodesP_connect_list _ _ _ _ hstrict3
  · -- cur_lt
    rw [out3.cur, hcur3, hcur2]
    intro k hk
    have hlt := h.cur_lt k hk
    rw [out3.len, hlen3]
    omega
  · -- next_lt
    rw [out3.nxt, if_pos rfl]
    intro k hk
    rw [out3.len]
    rcases List.mem_append.1 hk with hk' | hk'
    · rw [hnext3, hnext2] at hk'
      have hlt := h.next_lt k hk'
      rw [hlen3]
      omega
    · exact hLlt3 k (recvL3 k hk')
  · -- conn_lt
    exact pass_conn_lt out3 pre3 hconnlt3
  · -- conn_sym
    exact pass_sym out3 pre3 hsym3
  · -- conn_nodup
    exact pass_conn_nodup out3 pre3 hnodup3
  · -- cur_nodup
    rw [out3.cur, hcur3, hcur2]
    exact h.cur_nodup
  · -- next_nodup
    rw [out3.nxt, if_pos rfl, hnext3, hnext2]
    refine h.next_nodup.append pre3.2.1 ?_
    intro k hk1 hk2
    have hkL := recvL3 k hk2
    rw [hL3def] at hkL
    rcases List.mem_map.1 hkL with ⟨j, _, rfl⟩
    have hlt := h.next_lt _ hk1
    rw [hlen2] at hlt
    omega
  · -- retired_exp
    intro w hw hwc hwn
    rw [out3.len, hlen3] at hw
    rw [out3.cur, hcur3, hcur2] at hwc
    rw [out3.nxt, if_pos rfl, hnext3, hnext2] at hwn
    by_cases hws : w < st.nodes.length
    · have hwn' : w ∉ st.next_nodes := fun hx => hwn (List.mem_append_left _ hx)
      have hexp := h.retired_exp w hws hwc hwn'
      refine expanded_mono hws ?_ ?_ h.conn_lt hexp
      · intro k hk
        rw [out3.data k]
        exact hdata3 k hk
      · intro k
        rcases pass_conn_extend out3 k with ⟨e3, he3⟩
        rcases hconnext3 k with ⟨e0, he0⟩
        exact ⟨e0 ++ e3, by rw [he3, he0, List.append_assoc]⟩
    · exfalso
      apply hwn
      refine List.mem_append_right _ ?_
      have hkk : w - st.nodes.length < M3.length := by omega
      have hwL : w ∈ L3 := by
        rw [hL3def]
        refine List.mem_map.2 ⟨w - st.nodes.length, List.mem_range.2 hkk, ?_⟩
        rw [hlen2]
        omega
      have hmem : M3.getD (w - st.nodes.length) ([], (0, 0)) ∈ M3 :=
        getD_mem _ hkk
      have hwdata : (getNode ST3 w).data
          = (M3.getD (w - st.nodes.length) ([], (0, 0))).1 := by
        rw [show w = st.nodes.length + (w - st.nodes.length) from by omega,
          hfresh3 _ hkk]
        rw [show st.nodes.length + (w - st.nodes.length) - st.nodes.length
            = w - st.nodes.length from by omega]
      exact match3 w hwL _ hmem hwdata
  · -- current frontier unchanged
    rw [out3.cur, hcur3, hcur2]
  · -- next frontier extends
    refine ⟨cs3.map Prod.fst, ?_⟩
    rw [out3.nxt, if_pos rfl, hnext3, hnext2]
  · -- arena only grows
    rw [out3.len, hlen3]
    omega
  · -- old data preserved
    intro k hk
    rw [out3.data k]
    exact hdata3 k hk
  · -- connections only extend
    intro k
    rcases pass_conn_extend out3 k with ⟨e3, he3⟩
    rcases hconnext3 k with ⟨e0, he0⟩
    exact ⟨e0 ++ e3, by rw [he3, he0, List.append_assoc]⟩
  · -- the processed node is fully expanded
    intro m hm
    have hdRi : (getNode (connect_list ST3 i L3 NodeStage.PROTOTYPE M3).1 i).data
        = (getNode st i).data := by
      rw [out3.data i]
      exact hdata3 i hi
    rw [hdRi] at hm
    by_cases hm1 : m ∈ mods1
    · by_cases hm2 : m ∈ M2
      · by_cases hm3 : m ∈ M3
        · rcases List.mem_iff_getElem?.1 hm3 with ⟨k, hk⟩
          have hklt : k < M3.length := (List.getElem?_eq_some.1 hk).1
          have hz : st.nodes.length + k ∈ L3 := by
            rw [hL3def]
            refine List.mem_map.2 ⟨k, List.mem_range.2 hklt, ?_⟩
            rw [hlen2]
          have hgd : M3.getD k ([], (0, 0)) = m := by
            rw [List.getD_eq_getElem?_getD, hk]
            rfl
          have hzdata : (getNode ST3 (st.nodes.length + k)).data = m.1 := by
            rw [hfresh3 k hklt, hgd]
          have hzr : st.nodes.length + k ∈ cs3.map Prod.fst :=
            match3 _ hz m hm3 hzdata
          refine ⟨st.nodes.length + k, ?_, ?_⟩
          · rw [out3.conn_i]
            exact List.mem_append_right _ hzr
          · rw [out3.data]
            exact hzdata
        · rcases gone2 m hm2 hm3 with ⟨y, hy, hyd⟩
          have hylt : y < st.nodes.length := by
            have hlt := hconnlt2 i y hy
            rw [hlen2] at hlt
            exact hlt
          refine ⟨y, ?_, ?_⟩
          · rw [out3.conn_i]
            refine List.mem_append_left _ ?_
            rw [hold3 i hi]
            exact hy
          · rw [out3.data y, hdata3 y hylt]
            rw [out1.data y] at hyd
            exact hyd
      · rcases gone1 m hm1 hm2 with ⟨y, hy, hyd⟩
        have hylt : y < st.nodes.length := by
          have h1 := pass_conn_lt out1 pre1 h.conn_lt i y hy
          rw [out1.len] at h1
          exact h1
        refine ⟨y, ?_, ?_⟩
        · rw [out3.conn_i]
          refine List.mem_append_left _ ?_
          rw [hold3 i hi, out2.conn_i]
          exact List.mem_append_left _ hy
        · rw [out3.data y, hdata3 y hylt]
          exact hyd
    · have hmnd : (genMods (getNode st i).data).Nodup :=
        List.Nodup.of_map _ h0nodup
      rw [hmods1def] at hm1
      rcases filter_out_matched hcd_nodup hmnd m hm hm1 with ⟨t, ht, hteq⟩
      rw [hcdatas] at ht
      rcases List.mem_map.1 ht with ⟨y, hy, hyd⟩
      have hylt : y < st.nodes.length := h.conn_lt i y hy
      refine ⟨y, ?_, ?_⟩
      · rw [out3.conn_i]
        refine List.mem_append_left _ ?_
        rw [hold3 i hi, out2.conn_i]
        refine List.mem_append_left _ ?_
        rw [out1.conn_i]
        exact List.mem_append_left _ hy
      · rw [out3.data y, hdata3 y hylt, hyd, hteq]

theorem check_pinned_nodes (st : GraphState) (n : Nat) :
    (check_pinned st n).nodes = st.nodes := rfl

theorem check_pinned_cur (st : GraphState) (n : Nat) :
    (check_pinned st n).current_nodes = st.current_nodes := rfl

theorem check_pinned_next (st : GraphState) (n : Nat) :
    (check_pinned st n).next_nodes = st.next_nodes := rfl

theorem getNode_check_pinned {st : GraphState} {n k : Nat} :
    getNode (check_pinned st n) k = getNode st k := rfl

theorem sInv_check_pinned {st : GraphState} (n : Nat) (h : SInv st) :
    SInv (check_pinned st n) :=
  ⟨h.distinct, h.strict, h.cur_lt, h.next_lt, h.conn_lt, h.conn_sym,
    h.conn_nodup, h.cur_nodup, h.next_nodup, h.retired_exp⟩

theorem roundFold_SInv :
    ∀ (C : List Nat) (st : GraphState), SInv st →
      (∀ j ∈ C, j < st.nodes.length) →
      SInv (roundFold C st) ∧
      (roundFold C st).current_nodes = st.current_nodes ∧
      (∃ ext, (roundFold C st).next_nodes = st.next_nodes ++ ext) ∧
      st.nodes.length ≤ (roundFold C st).nodes.length ∧
      (∀ k, k < st.nodes.length →
        (getNode (roundFold C st) k).data = (getNode st k).data) ∧
      (∀ k : Nat, ∃ e,
        (getNode (roundFold C st) k).connections
          = (getNode st k).connections ++ e) ∧
      (∀ j ∈ C, expandedAt (roundFold C st) j) := by
  intro C
  induction C with
  | nil =>
    intro st h _
    exact ⟨h, rfl, ⟨[], (List.append_nil _).symm⟩, Nat.le_refl _,
      fun k _ => rfl, fun k => ⟨[], (List.append_nil _).symm⟩,
      fun j hj => absurd hj (List.not_mem_nil j)⟩
  | cons nid C ih =>
    intro st h hC
    have hnid : nid < st.nodes.length := hC nid (List.mem_cons_self nid C)
    obtain ⟨hP, hPcur, ⟨pext, hPnext⟩, hPlen, hPdata, hPconn, hPexp⟩ :=
      propagate_SInv st nid hnid h
    obtain ⟨P, hPeq⟩ : ∃ P, P = propagate st nid := ⟨_, rfl⟩
    rw [← hPeq] at hP hPcur hPnext hPlen hPdata hPconn hPexp
    have hstep : roundFold (nid :: C) st
        = roundFold C (check_pinned (propagate st nid) nid) := by
      unfold roundFold
      rw [List.foldl_cons]
    rw [← hPeq] at hstep
    rw [hstep]
    have h' : SInv (check_pinned P nid) := sInv_check_pinned nid hP
    have hC' : ∀ j ∈ C, j < (check_pinned P nid).nodes.length := by
      intro j hj
      rw [check_pinned_nodes]
      exact lt_of_lt_of_le (hC j (List.mem_cons_of_mem nid hj)) hPlen
    obtain ⟨hF, hFcur, ⟨fext, hFnext⟩, hFlen, hFdata, hFconn, hFexp⟩ :=
      ih (check_pinned P nid) h' hC'
    refine ⟨hF, ?_, ?_, ?_, ?_, ?_, ?_⟩
    · rw [hFcur, check_pinned_cur, hPcur]
    · refine ⟨pext ++ fext, ?_⟩
      rw [hFnext, check_pinned_next, hPnext, List.append_assoc]
    · have e2 := hFlen
      rw [check_pinned_nodes] at e2
      omega
    · intro k hk
      rw [hFdata k (by rw [check_pinned_nodes]; exact lt_of_lt_of_le hk hPlen),
        getNode_check_pinned, hPdata k hk]
    · intro k
      rcases hFconn k with ⟨e2, he2⟩
      rcases hPconn k with ⟨e1p, he1p⟩
      refine ⟨e1p ++ e2, ?_⟩
      rw [he2, getNode_check_pinned, he1p, List.append_assoc]
    · intro j hj
      rcases List.mem_cons.1 hj with rfl | hj'
      · refine expanded_mono ?_ hFdata hFconn h'.conn_lt ?_
        · rw [check_pinned_nodes]
          exact lt_of_lt_of_le hnid hPlen
        · intro m hm
          rw [getNode_check_pinned] at hm
          rcases hPexp m hm with ⟨y, hy, hyd⟩
          refine ⟨y, ?_, ?_⟩
          · rw [getNode_check_pinned]
            exact hy
          · rw [getNode_check_pinned]
            exact hyd
      · exact hFexp j hj'

theorem process_current_eq (st : GraphState) :
    process_current st
      = { roundFold st.current_nodes st with
          current_nodes := (roundFold st.current_nodes st).next_nodes,
          next_nodes := [] } := rfl

theorem process_current_SInv (st : GraphState) (h : SInv st) :
    SInv (process_current st) := by
  obtain ⟨hF, hFcur, ⟨ext, hFnext⟩, hFlen, hFdata, hFconn, hFexp⟩ :=
    roundFold_SInv st.current_nodes st h h.cur_lt
  rw [process_current_eq]
  refine ⟨hF.distinct, hF.strict, ?_, ?_, hF.conn_lt, hF.conn_sym,
    hF.conn_nodup, hF.next_nodup, List.nodup_nil, ?_⟩
  · intro k hk
    exact hF.next_lt k hk
  · intro k hk
    exact absurd (show k ∈ ([] : List Nat) from hk) (List.not_mem_nil k)
  · intro w hw hwc _
    by_cases hwcur : w ∈ st.current_nodes
    · exact hFexp w hwcur
    · refine hF.retired_exp w hw ?_ hwc
      rw [hFcur]
      exact hwcur

theorem run_steps_SInv : ∀ (n : Nat) (st : GraphState),
    SInv st → SInv (run_steps n st) := by
  intro n
  induction n with
  | zero =>
    intro st h
    exact h
  | succ n ih =>
    intro st h
    unfold run_steps
    by_cases hg : loopGuard st = true
    · rw [if_pos hg]
      exact ih _ (process_current_SInv st h)
    · rw [if_neg hg]
      exact h

theorem getNode_eq_getElem {st : GraphState} {k : Nat}
    (hk : k < st.nodes.length) : getNode st k = st.nodes[k] := by
  unfold getNode
  rw [List.getD_eq_getElem?_getD, List.getElem?_eq_getElem hk]
  rfl

theorem sInv_pairwise {st : GraphState} (h : SInv st) :
    st.nodes.Pairwise (fun a b => a.data ≠ b.data) := by
  rw [List.pairwise_iff_getElem]
  intro p q hp hq hpq
  have hd := h.distinct p q hp hq (Nat.ne_of_lt hpq)
  rw [getNode_eq_getElem hp, getNode_eq_getElem hq] at hd
  exact hd

theorem sInv_init (start : TowerSet) (rings : Nat) (ps : List TowerSet)
    (hs : strictTowers start) : SInv (withPinned (mkGraph start rings) ps) := by
  have hconn : ∀ a : Nat,
      (getNode (withPinned (mkGraph start rings) ps) a).connections = [] := by
    intro a
    cases a with
    | zero => rfl
    | succ b => rfl
  refine ⟨?_, ?_, ?_, ?_, ?_, ?_, ?_, ?_, ?_, ?_⟩
  · intro p q hp hq hne
    exfalso
    apply hne
    have hp' : p < 1 := hp
    have hq' : q < 1 := hq
    omega
  · intro nd hnd
    have hnd' : nd ∈ [(⟨start, [], []⟩ : NodeData)] := hnd
    rw [List.mem_singleton] at hnd'
    subst hnd'
    exact hs
  · intro k hk
    have hk' : k ∈ [0] := hk
    rw [List.mem_singleton] at hk'
    subst hk'
    exact Nat.zero_lt_one
  · intro k hk
    exact absurd (show k ∈ ([] : List Nat) from hk) (List.not_mem_nil k)
  · intro a k hk
    rw [hconn a] at hk
    exact absurd hk (List.not_mem_nil k)
  · intro a b hb
    rw [hconn a] at hb
    exact absurd hb (List.not_mem_nil b)
  · intro a
    rw [hconn a]
    exact List.nodup_nil
  · exact List.nodup_singleton 0
  · exact List.nodup_nil
  · intro w hw hwc _
    exfalso
    apply hwc
    have hw' : w < 1 := hw
    have hw0 : w = 0 := by omega
    subst hw0
    exact List.mem_singleton.2 rfl

/-- C4: dedup uniqueness. Starting the engine from any spec-valid (strictly
descending) configuration with any list of pinned targets, after any number
of rounds no two distinct nodes of the arena hold equal configurations: at
most one node is ever created per reachable configuration. -/
theorem no_duplicate_configurations (start : TowerSet) (rings : Nat)
    (ps : List TowerSet) (n : Nat) (hs : strictTowers start) :
    ((run_steps n (withPinned (mkGraph start rings) ps)).nodes).Pairwise
      (fun a b => a.data ≠ b.data) :=
  sInv_pairwise (run_steps_SInv n _ (sInv_init start rings ps hs))

/-- Witness for `no_duplicate_configurations`: the two-ring three-tower
puzzle pinned on its mirrored configuration, run for three rounds. -/
theorem no_duplicate_configurations_witness :
    strictTowers [[2, 1], [], []] ∧
    ((run_steps 3 (withPinned (mkGraph [[2, 1], [], []] 2)
        [[[], [], [2, 1]]])).nodes).Pairwise (fun a b => a.data ≠ b.data) := by
  have hs : strictTowers [[2, 1], [], []] := by
    intro t ht
    simp only [List.mem_cons, List.not_mem_nil, or_false] at ht
    rcases ht with rfl | rfl | rfl <;> simp [List.chain'_cons]
  exact ⟨hs, no_duplicate_configurations [[2, 1], [], []] 2 [[[], [], [2, 1]]] 3 hs⟩
